import Mathlib

/-!
The board/task store of `board.go` (ttrmg).

A shallow embedding of the data model and the operations of `src/board.go`
(`addBoard`, `NewTask`, `addTask`, `checkTask`, `stat`, `printDB`) together with
the properties proved about them.

Modelling conventions.

* A Go `string` is a Lean `String`, that is, a valid UTF-8 text.  `len(s)` is
  the number of BYTES of the text (`String.utf8ByteSize`), `for _, v := range s`
  visits its runes (`String.data`), `==` is equality of texts.
* `int64` values are integers; every arithmetic result is reduced into the
  signed 64-bit range with `wrap64`.
* `[]*board` and `[]*task` are lists; the pointers held by a store are
  pairwise distinct objects (as after `NewDatabase` or after decoding a
  document), so that a write through one pointer changes one list element.
* A method that mutates the store returns the new store next to its `error`
  result; `none` is Go's `nil` error, `some msg` the error built by
  `fmt.Errorf(msg)`.
* The Go standard library functions `unicode.IsSpace`, `unicode.IsPunct` and
  `strings.ToLower` are embedded from their definitions.  The parts of the
  Unicode range tables beyond Latin-1 (punctuation) and beyond ASCII (case
  mapping) are parameters, collected in `UnicodeTables`.
* `printDB` returns the sequence of the values it prints; `fuzzy.Match` of the
  library `github.com/lithammer/fuzzysearch` is embedded from its definition.
-/

namespace Ttrmg

/-! ## Go standard library: runes and strings -/

/-- The Unicode range tables of the Go standard library used by the program
and not spelled out here: `punct r` is `unicode.Is(unicode.Punct, r)` for a rune
above U+00FF, `lower r` is the case-range lookup of `unicode.ToLower` for a
rune above U+007F. -/
structure UnicodeTables where
  punct : Char → Bool
  lower : Char → Char

/-- Tables with no punctuation above Latin-1 and no case pairs above ASCII.
They serve to evaluate the program on concrete inputs whose result does not
depend on the tables: names of Latin-1 runes for `addBoard`, ASCII names for
the case-insensitive comparisons. -/
def plainTables : UnicodeTables := ⟨fun _ => false, fun r => r⟩

/-- Two's complement reduction of an integer into the `int64` range. -/
def wrap64 (x : Int) : Int := (x + 2 ^ 63) % 2 ^ 64 - 2 ^ 63

/-- Go `unicode.IsSpace`: for Latin-1 the eight listed runes, otherwise the
`White_Space` range table. -/
def IsSpace (r : Char) : Bool :=
  let n := r.toNat
  if n ≤ 0xFF then
    n == 0x09 || n == 0x0A || n == 0x0B || n == 0x0C || n == 0x0D || n == 0x20
      || n == 0x85 || n == 0xA0
  else
    n == 0x1680 || (0x2000 ≤ n && n ≤ 0x200A) || n == 0x2028 || n == 0x2029
      || n == 0x202F || n == 0x205F || n == 0x3000

/-- The Latin-1 runes whose entry in Go's `unicode.properties` table carries the
punctuation flag `pP`. -/
def latin1Punct : List Nat :=
  [0x21, 0x22, 0x23, 0x25, 0x26, 0x27, 0x28, 0x29, 0x2A, 0x2C, 0x2D, 0x2E, 0x2F,
   0x3A, 0x3B, 0x3F, 0x40, 0x5B, 0x5C, 0x5D, 0x5F, 0x7B, 0x7D,
   0xA1, 0xA7, 0xAB, 0xB6, 0xB7, 0xBB, 0xBF]

/-- Go `unicode.IsPunct`: the `properties` table for Latin-1, the `Punct` range
table above it. -/
def IsPunct (U : UnicodeTables) (r : Char) : Bool :=
  if r.toNat ≤ 0xFF then latin1Punct.contains r.toNat else U.punct r

/-- Go `unicode.ToLower` on one rune: `A`..`Z` are shifted by 32, the other
ASCII runes are kept, the runes above ASCII go through the case ranges. -/
def toLowerRune (U : UnicodeTables) (r : Char) : Char :=
  if r.toNat < 0x80 then
    if 0x41 ≤ r.toNat ∧ r.toNat ≤ 0x5A then Char.ofNat (r.toNat + 32) else r
  else U.lower r

/-- Go `strings.ToLower`: every rune of the text is mapped by `unicode.ToLower`
(the ASCII fast path of the library computes the same text). -/
def ToLower (U : UnicodeTables) (s : String) : String :=
  String.mk (s.data.map (toLowerRune U))

/-! ## Data model -/

/-- Go `type task struct`. -/
structure task where
  ID : Int
  Text : String
  Status : Bool
deriving DecidableEq

/-- Go `type board struct`. -/
structure board where
  ID : Int
  Name : String
  Status : Bool
  Tasks : List task
deriving DecidableEq

/-- Go `type database struct`. -/
structure database where
  Boards : List board
deriving DecidableEq

/-- Go `type stat struct`. -/
structure stat where
  done : Int
  inProgress : Int
  percent : Int
deriving DecidableEq

/-- Go `NewDatabase`. -/
def NewDatabase : database := ⟨[]⟩

/-! ## addBoard -/

/-- Error of `addBoard`, line 69. -/
def errTooLong : String := "board name must not be longer than 32 characters"

/-- Error of `addBoard`, line 73. -/
def errSpaces : String := "board name must not contain spaces"

/-- Error of `addBoard`, line 75. -/
def errSpecial : String := "board name must not contain special characters"

/-- Error of `addBoard`, line 81. -/
def errExists : String := "board with this name already exist"

/-- The loop of lines 71-77 over the runes of the name: the error returned at
the first white space or punctuation rune, `none` when the loop ends. -/
def checkRunes (U : UnicodeTables) : List Char → Option String
  | [] => none
  | v :: rest =>
    if IsSpace v then some errSpaces
    else if IsPunct U v then some errSpecial
    else checkRunes U rest

/-- The loop of lines 79-86 over the boards, started with the current value of
`maxID`: the error returned at the first board with the same name, otherwise
the final value of `maxID`. -/
def scanBoards (name : String) : List board → Int → Except String Int
  | [], maxID => .ok maxID
  | bd :: rest, maxID =>
    if bd.Name = name then .error errExists
    else scanBoards name rest (if bd.ID > maxID then bd.ID else maxID)

/-- Go `(db *database) addBoard(b *board) error`. -/
def database.addBoard (U : UnicodeTables) (db : database) (b : board) :
    database × Option String :=
  if b.Name.utf8ByteSize ≥ 33 then (db, some errTooLong)
  else
    match checkRunes U b.Name.data with
    | some e => (db, some e)
    | none =>
      match scanBoards b.Name db.Boards 0 with
      | .error e => (db, some e)
      | .ok maxID => (⟨db.Boards ++ [{ b with ID := wrap64 (maxID + 1) }]⟩, none)

/-! ## addTask, NewTask -/

/-- The inner loop of lines 109-113 over the tasks of the matched board. -/
def maxTaskID : List task → Int → Int
  | [], maxID => maxID
  | t :: rest, maxID => maxTaskID rest (if t.ID > maxID then t.ID else maxID)

/-- The loop of lines 107-118: at the first board whose lowered name equals the
lowered `bName` the task gets its id and is appended to that board (`some` of
the new board list, the method returns); `none` when the loop ends. -/
def addTaskLoop (U : UnicodeTables) (t : task) (bName : String) :
    List board → Option (List board)
  | [] => none
  | bd :: rest =>
    if ToLower U bd.Name = ToLower U bName then
      some ({ bd with Tasks := bd.Tasks ++ [{ t with ID := wrap64 (maxTaskID bd.Tasks 0 + 1) }] }
        :: rest)
    else (addTaskLoop U t bName rest).map (fun bs => bd :: bs)

/-- Go `(db *database) addTask(t *task, bName string) error`. -/
def database.addTask (U : UnicodeTables) (db : database) (t : task) (bName : String) :
    database × Option String :=
  let r : database × Option String :=
    if db.Boards.length = 0 then
      db.addBoard U { ID := 0, Name := bName, Status := false, Tasks := [] }
    else (db, none)
  match addTaskLoop U t bName r.1.Boards with
  | some bs => (⟨bs⟩, r.2)
  | none => (r.1, r.2)

/-- Go `(db *database) NewTask(text string)`; the error of `addTask` is dropped. -/
def database.NewTask (U : UnicodeTables) (db : database) (text : String) : database :=
  (db.addTask U { ID := 0, Text := text, Status := false } "actual").1

/-! ## checkTask -/

/-- The inner loop of lines 140-145: the first task with the id gets
`Status = true` (`some`, the method returns); `none` when the loop ends. -/
def checkTasks (taskId : Int) : List task → Option (List task)
  | [] => none
  | t :: rest =>
    if t.ID = taskId then some ({ t with Status := true } :: rest)
    else (checkTasks taskId rest).map (fun ts => t :: ts)

/-- The loop of lines 138-147; `bName` is the already lowered name. -/
def checkBoards (U : UnicodeTables) (taskId : Int) (bName : String) :
    List board → Option (List board)
  | [] => none
  | bd :: rest =>
    if ToLower U bd.Name = ToLower U bName then
      match checkTasks taskId bd.Tasks with
      | some ts => some ({ bd with Tasks := ts } :: rest)
      | none => (checkBoards U taskId bName rest).map (fun bs => bd :: bs)
    else (checkBoards U taskId bName rest).map (fun bs => bd :: bs)

/-- Go `(db *database) checkTask(taskId int64, bName string) error`. -/
def database.checkTask (U : UnicodeTables) (db : database) (taskId : Int) (bName : String) :
    database × Option String :=
  match checkBoards U taskId (ToLower U bName) db.Boards with
  | some bs => (⟨bs⟩, none)
  | none => (db, none)

/-! ## stat -/

/-- The inner loop of lines 163-169. -/
def statTasks : List task → stat → stat
  | [], r => r
  | t :: rest, r =>
    statTasks rest
      (if t.Status then { r with done := wrap64 (r.done + 1) }
       else { r with inProgress := wrap64 (r.inProgress + 1) })

/-- The loop of lines 161-171. -/
def statBoards : List board → stat → stat
  | [], r => r
  | bd :: rest, r =>
    statBoards rest (if bd.Tasks.length ≠ 0 then statTasks bd.Tasks r else r)

/-- Go `(db *database) stat() stat`.  The quotient is Go's truncating `int64`
division; a zero divisor behind the guard of line 172 would need the sum of
the two counters to wrap around to zero. -/
def database.stat (db : database) : stat :=
  let result := statBoards db.Boards ⟨0, 0, 0⟩
  if result.done > 0 ∨ result.inProgress > 0 then
    { result with
      percent := wrap64 (Int.tdiv (wrap64 (result.done * 100))
        (wrap64 (result.done + result.inProgress))) }
  else result

/-! ## printDB -/

/-- The inner loop of `fuzzy.Match` over the runes of the target: at the first
rune equal to `r1` the target is cut behind it (`some` of the rest, `continue
Outer`); `none` when the loop ends without an equal rune. -/
def matchRune (r1 : Char) : List Char → Option (List Char)
  | [] => none
  | r2 :: rest => if r1 = r2 then some rest else matchRune r1 rest

/-- The outer loop of `fuzzy.Match` over the runes of the source. -/
def matchRunes : List Char → List Char → Bool
  | [], _ => true
  | r1 :: source, target =>
    match matchRune r1 target with
    | some rest => matchRunes source rest
    | none => false

/-- Go `fuzzy.Match(source, target)` of the library
`github.com/lithammer/fuzzysearch`, which `printDB` calls, embedded from the
definition of the library: the byte lengths are compared first, equal texts
match, otherwise every rune of the source has to be found in the target behind
the rune found for the one before.  The runes are compared with `==`; the
case-folding variant of the library is `fuzzy.MatchFold`, which `printDB` does
not call. -/
def fuzzyMatch (source target : String) : Bool :=
  if target.utf8ByteSize < source.utf8ByteSize then false
  else if target.utf8ByteSize = source.utf8ByteSize ∧ source = target then true
  else matchRunes source.data target.data

/-- What `printDB` writes to the standard output, one value for each group of
print statements, with the values printed; colours and underlining are left to
the styling layer. -/
inductive Printed where
  /-- Lines 180-181: the gutter, `@` and the name of a board. -/
  | boardName (name : String)
  /-- Lines 184-192: the id, the glyph of the status and the text of a task. -/
  | taskLine (id : Int) (done : Bool) (text : String)
  /-- Line 195: the empty line behind a board. -/
  | blank
  /-- Line 199. -/
  | noTasks
  /-- Lines 201-206: the percentage and the two counters. -/
  | summary (percent done inProgress : Int)
deriving DecidableEq

/-- The text of a printed value without styling, as `fmt` formats it with
`indent = 10`. -/
def Printed.text : Printed → String
  | .boardName name => "     @" ++ name ++ "\n"
  | .taskLine id done text =>
    String.mk (List.replicate (10 - (toString id).length) ' ') ++ toString id ++ ". "
      ++ (if done then "[✓] " else "[ ] ") ++ text ++ "\n"
  | .blank => "\n"
  | .noTasks => "No tasks were found.\n"
  | .summary percent done inProgress =>
    "     " ++ toString percent ++ "% of all tasks complete\n"
      ++ "     " ++ toString done ++ " done | " ++ toString inProgress ++ " in progress\n"

/-- The loop of lines 182-194 over the tasks of a board. -/
def printTasks (pattern : String) : List task → List Printed
  | [] => []
  | t :: rest =>
    if fuzzyMatch pattern t.Text then
      Printed.taskLine t.ID t.Status t.Text :: printTasks pattern rest
    else printTasks pattern rest

/-- The loop of lines 179-196 over the boards. -/
def printBoards (pattern : String) : List board → List Printed
  | [] => []
  | bd :: rest =>
    Printed.boardName bd.Name
      :: (printTasks pattern bd.Tasks ++ Printed.blank :: printBoards pattern rest)

/-- Go `(db *database) printDB(pattern string)`: the values printed, in order. -/
def database.printDB (db : database) (pattern : String) : List Printed :=
  let stat := db.stat
  printBoards pattern db.Boards ++
    (if stat.done = 0 ∧ stat.inProgress = 0 then [Printed.noTasks]
     else [Printed.summary stat.percent stat.done stat.inProgress])

/-! ## Vocabulary of the properties -/

/-- The errors the specification calls `InvalidName`: the three errors of the
length and character checks of `addBoard`. -/
def InvalidName (e : String) : Prop := e = errTooLong ∨ e = errSpaces ∨ e = errSpecial

/-- The error the specification calls `DuplicateName`. -/
def DuplicateName (e : String) : Prop := e = errExists

/-- The name passes the checks of lines 68-77 of `addBoard`: fewer than 33
bytes, no white space rune, no punctuation rune. -/
def nameAccepted (U : UnicodeTables) (s : String) : Prop :=
  s.utf8ByteSize < 33 ∧ ∀ c ∈ s.data, IsSpace c = false ∧ IsPunct U c = false

/-- Case-insensitive match of two names, as `addTask` and `checkTask` compare
them: equal after `strings.ToLower`. -/
def nameMatch (U : UnicodeTables) (a b : String) : Prop := ToLower U a = ToLower U b

/-- The value `m` is the greatest of 0 and the listed ids. -/
def IsMaxOrZero (ids : List Int) (m : Int) : Prop :=
  0 ≤ m ∧ (∀ i ∈ ids, i ≤ m) ∧ (m = 0 ∨ m ∈ ids)

/-- The value `m` is the maximum of the listed ids, or 0 when there is none. -/
def IsMaxOrZeroIfNone (ids : List Int) (m : Int) : Prop :=
  (ids = [] ∧ m = 0) ∨ (m ∈ ids ∧ ∀ i ∈ ids, i ≤ m)

/-- The tasks of the list with the ids `k + 1`, `k + 2`, ... in the order of the
list. -/
def numberFrom (k : Int) : List task → List task
  | [] => []
  | t :: rest => { t with ID := k + 1 } :: numberFrom (k + 1) rest

/-- All tasks of the boards, board after board in insertion order. -/
def allTasks : List board → List task
  | [] => []
  | bd :: rest => bd.Tasks ++ allTasks rest

/-- The number of tasks with `Status = true` over all boards. -/
def doneCount (db : database) : Nat := (allTasks db.Boards).countP (fun t => t.Status)

/-- The number of tasks with `Status = false` over all boards. -/
def pendingCount (db : database) : Nat := (allTasks db.Boards).countP (fun t => !t.Status)

/-- The stores reachable from the empty store by calls of add board (a name
and an active flag), `addTask` and `checkTask`, whatever their arguments and
whatever error they return. -/
inductive Reachable (U : UnicodeTables) : database → Prop where
  | empty : Reachable U NewDatabase
  | addBoard (db : database) (name : String) (active : Bool) :
      Reachable U db → Reachable U (db.addBoard U ⟨0, name, active, []⟩).1
  | addTask (db : database) (t : task) (bName : String) :
      Reachable U db → Reachable U (db.addTask U t bName).1
  | checkTask (db : database) (taskId : Int) (bName : String) :
      Reachable U db → Reachable U (db.checkTask U taskId bName).1

/-- The ids 1, 2, ..., n in increasing order. -/
def idsUpTo (n : Nat) : List Int := (List.range n).map (fun (i : Nat) => (i : Int) + 1)

/-- The runes of the pattern appear in the text in the same order, gaps
allowed, each compared exactly. -/
def isSubsequence (pattern text : String) : Prop := pattern.data.Sublist text.data

/-- The runes of the pattern appear in the text in the same order, gaps
allowed, compared after lowering both texts. -/
def isSubsequenceFold (U : UnicodeTables) (pattern text : String) : Prop :=
  (ToLower U pattern).data.Sublist (ToLower U text).data

/-- The listing of the boards in insertion order: the name of each board,
under it those of its tasks (in insertion order, with id, status and text)
whose text is kept, and the empty line. -/
def listing (keep : String → Bool) : List board → List Printed
  | [] => []
  | bd :: rest =>
    [Printed.boardName bd.Name]
      ++ ((bd.Tasks.filter (fun t => keep t.Text)).map
            (fun t => Printed.taskLine t.ID t.Status t.Text))
      ++ [Printed.blank] ++ listing keep rest

/-- The ids held by a list of boards: for each board its id and the ids of its
tasks, in order. -/
def idShape (bs : List board) : List (Int × List Int) :=
  bs.map (fun b => (b.ID, b.Tasks.map (fun t => t.ID)))

/-- The boards carry the ids 1, 2, ... in insertion order, and so do the tasks
of each board, as far as the lengths stay below 2^63 (the range of a Go slice
length). -/
def Numbered (bs : List board) : Prop :=
  (bs.length < 2 ^ 63 → bs.map (fun b => b.ID) = idsUpTo bs.length) ∧
  ∀ b ∈ bs, b.Tasks.length < 2 ^ 63 → b.Tasks.map (fun t => t.ID) = idsUpTo b.Tasks.length

instance (pattern text : String) : Decidable (isSubsequence pattern text) := by
  unfold isSubsequence; infer_instance

instance (U : UnicodeTables) (pattern text : String) :
    Decidable (isSubsequenceFold U pattern text) := by
  unfold isSubsequenceFold; infer_instance

instance (e : String) : Decidable (InvalidName e) := by unfold InvalidName; infer_instance

instance (e : String) : Decidable (DuplicateName e) := by unfold DuplicateName; infer_instance

instance (U : UnicodeTables) (s : String) : Decidable (nameAccepted U s) := by
  unfold nameAccepted; infer_instance

instance (U : UnicodeTables) (a b : String) : Decidable (nameMatch U a b) := by
  unfold nameMatch; infer_instance

/-! ## Lemmas: machine integers and texts -/

theorem wrap64_of_range (x : Int) (h0 : -(2 ^ 63) ≤ x) (h1 : x < 2 ^ 63) : wrap64 x = x := by
  unfold wrap64
  omega

theorem length_le_utf8ByteSize (s : String) : s.length ≤ s.utf8ByteSize := by
  cases s with
  | mk l =>
    show l.length ≤ String.utf8ByteSize.go l
    induction l with
    | nil => simp [String.utf8ByteSize.go]
    | cons c cs ih =>
      have := Char.utf8Size_pos c
      simp only [String.utf8ByteSize.go, List.length_cons]
      omega

theorem invalidName_ne_exists (e : String) (h : InvalidName e) : ¬ DuplicateName e := by
  unfold DuplicateName
  rcases h with h | h | h <;> subst h <;> decide

/-! ## Lemmas: addBoard -/

theorem checkRunes_none (U : UnicodeTables) (l : List Char) :
    checkRunes U l = none ↔ ∀ c ∈ l, IsSpace c = false ∧ IsPunct U c = false := by
  induction l with
  | nil => simp [checkRunes]
  | cons c cs ih =>
    simp only [checkRunes, List.mem_cons, forall_eq_or_imp]
    by_cases hs : IsSpace c = true
    · simp [hs]
    · by_cases hp : IsPunct U c = true
      · simp [hs, hp]
      · simp [hs, hp, ih]

theorem checkRunes_some (U : UnicodeTables) (l : List Char) (e : String)
    (h : checkRunes U l = some e) : e = errSpaces ∨ e = errSpecial := by
  induction l with
  | nil => simp [checkRunes] at h
  | cons c cs ih =>
    simp only [checkRunes] at h
    split at h
    · left; simpa using h.symm
    · split at h
      · right; simpa using h.symm
      · exact ih h

theorem scanBoards_error (name : String) (bs : List board) (m : Int) (e : String) :
    scanBoards name bs m = .error e → e = errExists ∧ ∃ x ∈ bs, x.Name = name := by
  induction bs generalizing m with
  | nil => simp [scanBoards]
  | cons bd rest ih =>
    simp only [scanBoards]
    split
    · rename_i hn
      intro h
      refine ⟨?_, bd, by simp, hn⟩
      injection h with h
      exact h.symm
    · intro h
      obtain ⟨h1, x, hx, hx2⟩ := ih _ h
      exact ⟨h1, x, by simp [hx], hx2⟩

theorem scanBoards_ok (name : String) (bs : List board) (m m1 : Int) :
    scanBoards name bs m = .ok m1 →
      (∀ x ∈ bs, x.Name ≠ name) ∧ m ≤ m1 ∧ (∀ x ∈ bs, x.ID ≤ m1) ∧
        (m1 = m ∨ ∃ x ∈ bs, x.ID = m1) := by
  induction bs generalizing m with
  | nil =>
    simp only [scanBoards]
    intro h
    injection h with h
    simp [h]
  | cons bd rest ih =>
    simp only [scanBoards]
    split
    · intro h; cases h
    · rename_i hn
      intro h
      obtain ⟨h1, h2, h3, h4⟩ := ih _ h
      refine ⟨?_, ?_, ?_, ?_⟩
      · intro x hx
        rcases List.mem_cons.1 hx with rfl | hx
        · exact hn
        · exact h1 x hx
      · split at h2 <;> omega
      · intro x hx
        rcases List.mem_cons.1 hx with rfl | hx
        · split at h2 <;> omega
        · exact h3 x hx
      · rcases h4 with h4 | ⟨x, hx, hx2⟩
        · split at h4
          · right; exact ⟨bd, by simp, h4.symm⟩
          · left; exact h4
        · right; exact ⟨x, by simp [hx], hx2⟩

theorem scanBoards_fresh (name : String) (bs : List board) (m : Int)
    (h : ∀ x ∈ bs, x.Name ≠ name) : ∃ m1, scanBoards name bs m = .ok m1 := by
  induction bs generalizing m with
  | nil => exact ⟨m, rfl⟩
  | cons bd rest ih =>
    simp only [scanBoards]
    rw [if_neg (h bd (by simp))]
    exact ih _ (fun x hx => h x (by simp [hx]))

theorem scanBoards_dup (name : String) (bs : List board) (m : Int)
    (h : ∃ x ∈ bs, x.Name = name) : scanBoards name bs m = .error errExists := by
  induction bs generalizing m with
  | nil => simp at h
  | cons bd rest ih =>
    simp only [scanBoards]
    split
    · rfl
    · rename_i hn
      obtain ⟨x, hx, hx2⟩ := h
      rcases List.mem_cons.1 hx with rfl | hx
      · exact absurd hx2 hn
      · exact ih _ ⟨x, hx, hx2⟩

/-- What `addBoard` does on a name that passes the checks and is not taken. -/
theorem addBoard_accepts (U : UnicodeTables) (db : database) (b : board)
    (hv : nameAccepted U b.Name) (hf : ∀ x ∈ db.Boards, x.Name ≠ b.Name) :
    ∃ m, IsMaxOrZero (db.Boards.map (fun x => x.ID)) m ∧
      db.addBoard U b = (⟨db.Boards ++ [{ b with ID := wrap64 (m + 1) }]⟩, none) := by
  obtain ⟨m, hm⟩ := scanBoards_fresh b.Name db.Boards 0 hf
  obtain ⟨_, h2, h3, h4⟩ := scanBoards_ok _ _ _ _ hm
  refine ⟨m, ⟨h2, ?_, ?_⟩, ?_⟩
  · intro i hi
    obtain ⟨x, hx, rfl⟩ := List.mem_map.1 hi
    exact h3 x hx
  · rcases h4 with h4 | ⟨x, hx, hx2⟩
    · exact Or.inl h4
    · exact Or.inr (List.mem_map.2 ⟨x, hx, hx2⟩)
  · have hlen : ¬ b.Name.utf8ByteSize ≥ 33 := by have := hv.1; omega
    simp only [database.addBoard, if_neg hlen, (checkRunes_none U _).2 hv.2, hm]

/-- What `addBoard` does on a name that fails the checks of lines 68-77. -/
theorem addBoard_rejects (U : UnicodeTables) (db : database) (b : board)
    (hv : ¬ nameAccepted U b.Name) :
    ∃ e, InvalidName e ∧ db.addBoard U b = (db, some e) := by
  by_cases hlen : b.Name.utf8ByteSize ≥ 33
  · exact ⟨errTooLong, Or.inl rfl, by simp only [database.addBoard, if_pos hlen]⟩
  · cases hc : checkRunes U b.Name.data with
    | none =>
      exact absurd ⟨by omega, (checkRunes_none U _).1 hc⟩ hv
    | some e =>
      refine ⟨e, Or.inr (checkRunes_some U _ e hc), ?_⟩
      simp only [database.addBoard, if_neg hlen, hc]

/-- What `addBoard` does on a name that passes the checks and is taken. -/
theorem addBoard_taken (U : UnicodeTables) (db : database) (b : board)
    (hv : nameAccepted U b.Name) (hd : ∃ x ∈ db.Boards, x.Name = b.Name) :
    db.addBoard U b = (db, some errExists) := by
  have hlen : ¬ b.Name.utf8ByteSize ≥ 33 := by have := hv.1; omega
  simp only [database.addBoard, if_neg hlen, (checkRunes_none U _).2 hv.2,
    scanBoards_dup _ _ _ hd]

/-! ## addBoard: the claims -/

/-- C1 (amended): whenever `addBoard` succeeds, the resulting board sequence is
the old sequence, unchanged and in the same order, followed by exactly one new
board: the given board (its name included) with its id set to `m + 1` reduced to
64 bits, where `m` is the greatest of 0 and the ids of the old boards. -/
theorem addBoard_success_shape (U : UnicodeTables) (db : database) (b : board)
    (h : (db.addBoard U b).2 = none) :
    ∃ m, IsMaxOrZero (db.Boards.map (fun x => x.ID)) m ∧
      (db.addBoard U b).1.Boards = db.Boards ++ [{ b with ID := wrap64 (m + 1) }] := by
  by_cases hv : nameAccepted U b.Name
  · by_cases hd : ∃ x ∈ db.Boards, x.Name = b.Name
    · rw [addBoard_taken U db b hv hd] at h
      cases h
    · obtain ⟨m, hm, he⟩ := addBoard_accepts U db b hv (by simpa using hd)
      exact ⟨m, hm, by rw [he]⟩
  · obtain ⟨e, _, he⟩ := addBoard_rejects U db b hv
    rw [he] at h
    cases h

/-- Witness of C1: a store whose only board has id 7 receives a board with id 8. -/
theorem addBoard_success_shape_witness :
    ∃ m, IsMaxOrZero ((database.mk [⟨7, "a", false, []⟩]).Boards.map (fun x => x.ID)) m ∧
      ((database.mk [⟨7, "a", false, []⟩]).addBoard plainTables ⟨0, "b", true, []⟩).1.Boards
        = (database.mk [⟨7, "a", false, []⟩]).Boards
            ++ [{ (⟨0, "b", true, []⟩ : board) with ID := wrap64 (m + 1) }] :=
  addBoard_success_shape plainTables ⟨[⟨7, "a", false, []⟩]⟩ ⟨0, "b", true, []⟩ (by decide)

/-- Counterexample to C1 as stated: on the store whose only board has id -5,
`addBoard` succeeds and gives the new board the id 1; no `m` that is the maximum
of the old ids (here -5) has the new board carry `m + 1`. -/
theorem addBoard_negative_ids_counterexample :
    ((database.mk [⟨-5, "a", false, []⟩]).addBoard plainTables ⟨0, "b", false, []⟩)
        = (⟨[⟨-5, "a", false, []⟩, ⟨1, "b", false, []⟩]⟩, none) ∧
    ¬ ∃ m, IsMaxOrZeroIfNone ((database.mk [⟨-5, "a", false, []⟩]).Boards.map (fun x => x.ID)) m ∧
      ((database.mk [⟨-5, "a", false, []⟩]).addBoard plainTables ⟨0, "b", false, []⟩).1.Boards
        = (database.mk [⟨-5, "a", false, []⟩]).Boards
            ++ [{ (⟨0, "b", false, []⟩ : board) with ID := m + 1 }] := by
  refine ⟨by decide, ?_⟩
  rintro ⟨m, hm, h⟩
  have hm5 : m = -5 := by
    rcases hm with ⟨h1, _⟩ | ⟨h1, _⟩
    · simp at h1
    · simpa using h1
  subst hm5
  revert h
  decide

/-- C2 (evaluation at the failing input): the name of 17 runes `é` has no white
space and no punctuation rune, the store is empty, and `addBoard` rejects the
name as longer than 32 characters: `len` counts its 34 bytes. -/
theorem addBoard_rejects_17_runes :
    ("ééééééééééééééééé".length = 17 ∧ "ééééééééééééééééé".utf8ByteSize = 34 ∧
      ∀ c ∈ "ééééééééééééééééé".data, IsSpace c = false ∧ IsPunct plainTables c = false) ∧
    NewDatabase.addBoard plainTables ⟨0, "ééééééééééééééééé", false, []⟩
      = (NewDatabase, some errTooLong) := by
  decide

/-- C3: a name of 33 or more characters, or with at least one white space or
punctuation character, makes `addBoard` fail with an invalid-name error and
leaves the store unchanged. -/
theorem addBoard_invalid_name (U : UnicodeTables) (db : database) (b : board)
    (h : 33 ≤ b.Name.length ∨ ∃ c ∈ b.Name.data, IsSpace c = true ∨ IsPunct U c = true) :
    ∃ e, InvalidName e ∧ db.addBoard U b = (db, some e) := by
  apply addBoard_rejects
  rintro ⟨h1, h2⟩
  rcases h with h | ⟨c, hc, h⟩
  · have := length_le_utf8ByteSize b.Name
    omega
  · have := h2 c hc
    rcases h with h | h
    · rw [this.1] at h; cases h
    · rw [this.2] at h; cases h

/-- Witness of C3: the name `a b` holds a space. -/
theorem addBoard_invalid_name_witness :
    ∃ e, InvalidName e ∧
      (database.mk [⟨1, "x", false, []⟩]).addBoard plainTables ⟨0, "a b", false, []⟩
        = (⟨[⟨1, "x", false, []⟩]⟩, some e) :=
  addBoard_invalid_name plainTables ⟨[⟨1, "x", false, []⟩]⟩ ⟨0, "a b", false, []⟩
    (Or.inr ⟨' ', by decide, Or.inl (by decide)⟩)

/-- C4 (amended): `addBoard` has no check for the empty name.  With the empty
name it succeeds and appends one board when no board of the store has the empty
name, and it fails with the duplicate-name error, the store unchanged, when one
has. -/
theorem addBoard_empty_name (U : UnicodeTables) (db : database) (b : board)
    (h : b.Name = "") :
    ((∀ x ∈ db.Boards, x.Name ≠ "") →
      ∃ m, IsMaxOrZero (db.Boards.map (fun x => x.ID)) m ∧
        db.addBoard U b = (⟨db.Boards ++ [{ b with ID := wrap64 (m + 1) }]⟩, none)) ∧
    ((∃ x ∈ db.Boards, x.Name = "") →
      ∃ e, DuplicateName e ∧ db.addBoard U b = (db, some e)) := by
  have hv : nameAccepted U b.Name := by
    rw [h]
    exact ⟨by decide, by simp⟩
  constructor
  · intro hf
    exact addBoard_accepts U db b hv (by rw [h]; exact hf)
  · intro hd
    exact ⟨errExists, rfl, addBoard_taken U db b hv (by rw [h]; exact hd)⟩

/-- Witness of C4: the empty name on the empty store is accepted. -/
theorem addBoard_empty_name_witness :
    ∃ m, IsMaxOrZero (NewDatabase.Boards.map (fun x => x.ID)) m ∧
      NewDatabase.addBoard plainTables ⟨0, "", false, []⟩
        = (⟨NewDatabase.Boards ++ [{ (⟨0, "", false, []⟩ : board) with ID := wrap64 (m + 1) }]⟩,
            none) :=
  (addBoard_empty_name plainTables NewDatabase ⟨0, "", false, []⟩ rfl).1
    (by simp [NewDatabase])

/-- Counterexample to C4 as stated: on the empty store `addBoard` with the empty
name returns no error and the store holds one board afterwards. -/
theorem addBoard_empty_name_counterexample :
    NewDatabase.addBoard plainTables ⟨0, "", false, []⟩
      = (⟨[⟨1, "", false, []⟩]⟩, none) := by
  decide

/-- C5 (amended): with a name equal to the name of an existing board `addBoard`
always fails and leaves the store unchanged; the error is the duplicate-name
error when the name passes the length and character checks, which run first,
and an invalid-name error when it does not. -/
theorem addBoard_existing_name (U : UnicodeTables) (db : database) (b : board)
    (h : ∃ x ∈ db.Boards, x.Name = b.Name) :
    (nameAccepted U b.Name → ∃ e, DuplicateName e ∧ db.addBoard U b = (db, some e)) ∧
    (¬ nameAccepted U b.Name → ∃ e, InvalidName e ∧ db.addBoard U b = (db, some e)) :=
  ⟨fun hv => ⟨errExists, rfl, addBoard_taken U db b hv h⟩, fun hv => addBoard_rejects U db b hv⟩

/-- Witness of C5: the name `work` of the only board is offered again. -/
theorem addBoard_existing_name_witness :
    ∃ e, DuplicateName e ∧
      (database.mk [⟨1, "work", false, []⟩]).addBoard plainTables ⟨0, "work", false, []⟩
        = (⟨[⟨1, "work", false, []⟩]⟩, some e) :=
  (addBoard_existing_name plainTables ⟨[⟨1, "work", false, []⟩]⟩ ⟨0, "work", false, []⟩
    ⟨⟨1, "work", false, []⟩, by simp, rfl⟩).1 (by decide)

/-- Counterexample to C5 as stated: a store read from a document holds a board
named `a b`; `addBoard` with that same name fails with the error of the space
check, which is not the duplicate-name error. -/
theorem addBoard_existing_name_counterexample :
    (∃ x ∈ (database.mk [⟨1, "a b", false, []⟩]).Boards, x.Name = "a b") ∧
    (database.mk [⟨1, "a b", false, []⟩]).addBoard plainTables ⟨0, "a b", false, []⟩
      = (⟨[⟨1, "a b", false, []⟩]⟩, some errSpaces) ∧
    ¬ DuplicateName errSpaces := by
  decide

/-! ## Lemmas: addTask -/

theorem exists_first {α : Type} (p : α → Prop) [DecidablePred p] (l : List α)
    (h : ∃ x ∈ l, p x) :
    ∃ pre b post, l = pre ++ b :: post ∧ (∀ x ∈ pre, ¬ p x) ∧ p b := by
  induction l with
  | nil => simp at h
  | cons a rest ih =>
    by_cases ha : p a
    · exact ⟨[], a, rest, rfl, by simp, ha⟩
    · obtain ⟨x, hx, hpx⟩ := h
      rcases List.mem_cons.1 hx with rfl | hx
      · exact absurd hpx ha
      · obtain ⟨pre, b, post, e, h1, h2⟩ := ih ⟨x, hx, hpx⟩
        refine ⟨a :: pre, b, post, by simp [e], ?_, h2⟩
        intro y hy
        rcases List.mem_cons.1 hy with rfl | hy
        · exact ha
        · exact h1 y hy

theorem maxTaskID_spec (ts : List task) (m : Int) :
    m ≤ maxTaskID ts m ∧ (∀ t ∈ ts, t.ID ≤ maxTaskID ts m) ∧
      (maxTaskID ts m = m ∨ ∃ t ∈ ts, t.ID = maxTaskID ts m) := by
  induction ts generalizing m with
  | nil => simp [maxTaskID]
  | cons t rest ih =>
    simp only [maxTaskID]
    by_cases hc : t.ID > m
    · simp only [if_pos hc]
      obtain ⟨h1, h2, h3⟩ := ih t.ID
      refine ⟨by omega, ?_, ?_⟩
      · intro x hx
        rcases List.mem_cons.1 hx with rfl | hx
        · exact h1
        · exact h2 x hx
      · rcases h3 with h3 | ⟨x, hx, hx2⟩
        · right; exact ⟨t, by simp, h3.symm⟩
        · right; exact ⟨x, by simp [hx], hx2⟩
    · simp only [if_neg hc]
      obtain ⟨h1, h2, h3⟩ := ih m
      refine ⟨h1, ?_, ?_⟩
      · intro x hx
        rcases List.mem_cons.1 hx with rfl | hx
        · omega
        · exact h2 x hx
      · rcases h3 with h3 | ⟨x, hx, hx2⟩
        · left; exact h3
        · right; exact ⟨x, by simp [hx], hx2⟩

theorem maxTaskID_isMaxOrZero (ts : List task) :
    IsMaxOrZero (ts.map (fun t => t.ID)) (maxTaskID ts 0) := by
  obtain ⟨h1, h2, h3⟩ := maxTaskID_spec ts 0
  refine ⟨h1, ?_, ?_⟩
  · intro i hi
    obtain ⟨t, ht, rfl⟩ := List.mem_map.1 hi
    exact h2 t ht
  · rcases h3 with h3 | ⟨t, ht, ht2⟩
    · exact Or.inl h3
    · exact Or.inr (List.mem_map.2 ⟨t, ht, ht2⟩)

theorem addTaskLoop_first (U : UnicodeTables) (t : task) (bName : String)
    (pre : List board) (b : board) (post : List board)
    (hpre : ∀ x ∈ pre, ¬ nameMatch U x.Name bName) (hb : nameMatch U b.Name bName) :
    addTaskLoop U t bName (pre ++ b :: post)
      = some (pre ++ { b with Tasks := b.Tasks ++ [{ t with ID := wrap64 (maxTaskID b.Tasks 0 + 1) }] }
          :: post) := by
  induction pre with
  | nil =>
    have hb1 : ToLower U b.Name = ToLower U bName := hb
    simp only [List.nil_append, addTaskLoop, if_pos hb1]
  | cons a rest ih =>
    have ha : ¬ ToLower U a.Name = ToLower U bName := hpre a (by simp)
    have h1 := ih (fun x hx => hpre x (by simp [hx]))
    show addTaskLoop U t bName (a :: (rest ++ b :: post)) = _
    simp only [addTaskLoop, if_neg ha, h1, Option.map_some', List.cons_append]

theorem addTaskLoop_none (U : UnicodeTables) (t : task) (bName : String) (l : List board)
    (h : ∀ x ∈ l, ¬ nameMatch U x.Name bName) : addTaskLoop U t bName l = none := by
  induction l with
  | nil => rfl
  | cons a rest ih =>
    have ha : ¬ ToLower U a.Name = ToLower U bName := h a (by simp)
    simp only [addTaskLoop, if_neg ha, ih (fun x hx => h x (by simp [hx])), Option.map_none']

/-- What `addTask` does on a store with a matching board. -/
theorem addTask_first (U : UnicodeTables) (db : database) (t : task) (bName : String)
    (pre : List board) (b : board) (post : List board) (hdb : db.Boards = pre ++ b :: post)
    (hpre : ∀ x ∈ pre, ¬ nameMatch U x.Name bName) (hb : nameMatch U b.Name bName) :
    db.addTask U t bName
      = (⟨pre ++ { b with Tasks := b.Tasks ++ [{ t with ID := wrap64 (maxTaskID b.Tasks 0 + 1) }] }
          :: post⟩, none) := by
  have hlen : ¬ db.Boards.length = 0 := by rw [hdb]; simp
  have h1 := addTaskLoop_first U t bName pre b post hpre hb
  rw [← hdb] at h1
  simp only [database.addTask, if_neg hlen, h1]

/-- What `addTask` does on the empty store when the name passes the checks of
`addBoard`. -/
theorem addTask_empty (U : UnicodeTables) (t : task) (bName : String)
    (hv : nameAccepted U bName) :
    NewDatabase.addTask U t bName
      = (⟨[⟨1, bName, false, [{ t with ID := 1 }]⟩]⟩, none) := by
  obtain ⟨m, hm, he⟩ := addBoard_accepts U NewDatabase ⟨0, bName, false, []⟩ hv (by simp [NewDatabase])
  have hm0 : m = 0 := by
    rcases hm.2.2 with h | h
    · exact h
    · simp [NewDatabase] at h
  subst hm0
  have hw : wrap64 (0 + 1) = 1 := by decide
  have hlen : NewDatabase.Boards.length = 0 := rfl
  simp only [database.addTask, if_pos hlen, he, hw]
  simp only [NewDatabase, List.nil_append, addTaskLoop, if_true, maxTaskID, hw]

theorem actual_accepted (U : UnicodeTables) : nameAccepted U "actual" := by
  refine ⟨by decide, ?_⟩
  intro c hc
  have hc1 : c ∈ ['a', 'c', 't', 'u', 'a', 'l'] := hc
  simp only [List.mem_cons, List.mem_singleton, List.not_mem_nil, or_false] at hc1
  rcases hc1 with rfl | rfl | rfl | rfl | rfl | rfl <;> exact ⟨rfl, rfl⟩

theorem numberFrom_status (k : Int) (ts : List task) :
    (numberFrom k ts).map (fun t => t.Status) = ts.map (fun t => t.Status) := by
  induction ts generalizing k with
  | nil => rfl
  | cons t rest ih => simp only [numberFrom, List.map_cons, ih]

/-- C6: for every text, `NewTask` on the empty store yields the store with
exactly one board, named `actual`, with id 1 and `Status = false`, holding
exactly one task with id 1, the given text and `Status = false`. -/
theorem NewTask_on_empty_store (U : UnicodeTables) (text : String) :
    NewDatabase.NewTask U text = ⟨[⟨1, "actual", false, [⟨1, text, false⟩]⟩]⟩ := by
  simp only [database.NewTask, addTask_empty U _ "actual" (actual_accepted U)]

/-- C7 (amended): when some board matches `bName` case-insensitively, `addTask`
appends the task at the end of the first such board with the id `m + 1` reduced
to 64 bits, where `m` is the greatest of 0 and the task ids of that board; it
returns no error and every other board, the number and order of the boards and
the existing tasks of the target board are unchanged. -/
theorem addTask_appends_to_first_match (U : UnicodeTables) (db : database) (t : task)
    (bName : String) (h : ∃ x ∈ db.Boards, nameMatch U x.Name bName) :
    ∃ pre b post m, db.Boards = pre ++ b :: post ∧
      (∀ x ∈ pre, ¬ nameMatch U x.Name bName) ∧ nameMatch U b.Name bName ∧
      IsMaxOrZero (b.Tasks.map (fun x => x.ID)) m ∧
      db.addTask U t bName
        = (⟨pre ++ { b with Tasks := b.Tasks ++ [{ t with ID := wrap64 (m + 1) }] } :: post⟩,
            none) := by
  obtain ⟨pre, b, post, hdb, hpre, hb⟩ :=
    exists_first (fun x => nameMatch U x.Name bName) db.Boards h
  exact ⟨pre, b, post, maxTaskID b.Tasks 0, hdb, hpre, hb, maxTaskID_isMaxOrZero b.Tasks,
    addTask_first U db t bName pre b post hdb hpre hb⟩

/-- Witness of C7: a task for `WORK` goes to the board `Work`, not to `home`. -/
theorem addTask_appends_to_first_match_witness :
    ∃ pre b post m,
      (database.mk [⟨1, "home", false, []⟩, ⟨2, "Work", false, [⟨4, "x", true⟩]⟩]).Boards
        = pre ++ b :: post ∧
      (∀ x ∈ pre, ¬ nameMatch plainTables x.Name "WORK") ∧ nameMatch plainTables b.Name "WORK" ∧
      IsMaxOrZero (b.Tasks.map (fun x => x.ID)) m ∧
      (database.mk [⟨1, "home", false, []⟩, ⟨2, "Work", false, [⟨4, "x", true⟩]⟩]).addTask
          plainTables ⟨0, "y", false⟩ "WORK"
        = (⟨pre ++ { b with Tasks := b.Tasks ++ [{ (⟨0, "y", false⟩ : task) with
              ID := wrap64 (m + 1) }] } :: post⟩, none) :=
  addTask_appends_to_first_match plainTables
    ⟨[⟨1, "home", false, []⟩, ⟨2, "Work", false, [⟨4, "x", true⟩]⟩]⟩ ⟨0, "y", false⟩ "WORK"
    ⟨⟨2, "Work", false, [⟨4, "x", true⟩]⟩, by simp, by decide⟩

/-- Counterexample to C7 as stated: the matching board of a store read from a
document holds one task, with id -3; `addTask` gives the new task the id 1, and
no `m` that is the maximum task id of the board (here -3) has the new task
carry `m + 1`. -/
theorem addTask_negative_ids_counterexample :
    (database.mk [⟨1, "work", false, [⟨-3, "x", false⟩]⟩]).addTask plainTables ⟨0, "y", false⟩ "work"
      = (⟨[⟨1, "work", false, [⟨-3, "x", false⟩, ⟨1, "y", false⟩]⟩]⟩, none) ∧
    ¬ ∃ m, IsMaxOrZeroIfNone ([(⟨-3, "x", false⟩ : task)].map (fun x => x.ID)) m ∧
      ((database.mk [⟨1, "work", false, [⟨-3, "x", false⟩]⟩]).addTask plainTables
          ⟨0, "y", false⟩ "work").1.Boards
        = [⟨1, "work", false, [⟨-3, "x", false⟩] ++ [{ (⟨0, "y", false⟩ : task) with ID := m + 1 }]⟩] := by
  refine ⟨by decide, ?_⟩
  rintro ⟨m, hm, h⟩
  have hm3 : m = -3 := by
    rcases hm with ⟨h1, _⟩ | ⟨h1, _⟩
    · simp at h1
    · simpa using h1
  subst hm3
  revert h
  decide

theorem checkTasks_first (taskId : Int) (tpre : List task) (t : task) (tpost : List task)
    (hpre : ∀ x ∈ tpre, x.ID ≠ taskId) (ht : t.ID = taskId) :
    checkTasks taskId (tpre ++ t :: tpost)
      = some (tpre ++ { t with Status := true } :: tpost) := by
  induction tpre with
  | nil => simp only [List.nil_append, checkTasks, if_pos ht]
  | cons a rest ih =>
    have ha : ¬ a.ID = taskId := hpre a (by simp)
    have h1 := ih (fun x hx => hpre x (by simp [hx]))
    show checkTasks taskId (a :: (rest ++ t :: tpost)) = _
    simp only [checkTasks, if_neg ha, h1, Option.map_some', List.cons_append]

theorem checkBoards_first (U : UnicodeTables) (taskId : Int) (n : String)
    (pre : List board) (b : board) (post : List board) (ts : List task)
    (hpre : ∀ x ∈ pre, ¬ nameMatch U x.Name n) (hb : nameMatch U b.Name n)
    (hts : checkTasks taskId b.Tasks = some ts) :
    checkBoards U taskId n (pre ++ b :: post) = some (pre ++ { b with Tasks := ts } :: post) := by
  induction pre with
  | nil =>
    have hb1 : ToLower U b.Name = ToLower U n := hb
    simp only [List.nil_append, checkBoards, if_pos hb1, hts]
  | cons a rest ih =>
    have ha : ¬ ToLower U a.Name = ToLower U n := hpre a (by simp)
    have h1 := ih (fun x hx => hpre x (by simp [hx]))
    show checkBoards U taskId n (a :: (rest ++ b :: post)) = _
    simp only [checkBoards, if_neg ha, h1, Option.map_some', List.cons_append]

/-- When lowering the lowered `bName` changes nothing, `checkTask` compares the
board names with `bName` as `addTask` does. -/
theorem nameMatch_lowered (U : UnicodeTables) (a bName : String)
    (hid : ToLower U (ToLower U bName) = ToLower U bName) :
    nameMatch U a (ToLower U bName) ↔ nameMatch U a bName := by
  unfold nameMatch
  rw [hid]

theorem toLowerRune_idem_ascii (U : UnicodeTables) (c : Char) (h : c.toNat < 0x80) :
    toLowerRune U (toLowerRune U c) = toLowerRune U c := by
  by_cases hu : 0x41 ≤ c.toNat ∧ c.toNat ≤ 0x5A
  · have hc : c = Char.ofNat c.toNat := (Char.ofNat_toNat c).symm
    obtain ⟨h1, h2⟩ := hu
    generalize c.toNat = n at hc h1 h2
    subst hc
    interval_cases n <;> rfl
  · have e : toLowerRune U c = c := by simp only [toLowerRune, if_pos h, if_neg hu]
    rw [e, e]

/-- Whatever the case tables are, lowering an ASCII name twice gives the same
text as lowering it once. -/
theorem ToLower_idem_ascii (U : UnicodeTables) (s : String)
    (h : ∀ c ∈ s.data, c.toNat < 0x80) : ToLower U (ToLower U s) = ToLower U s := by
  unfold ToLower
  congr 1
  simp only [List.map_map]
  apply List.map_congr_left
  intro c hc
  exact toLowerRune_idem_ascii U c (h c hc)

/-! ## Lemmas: stat -/

theorem countP_status_add (ts : List task) :
    ts.countP (fun t => t.Status) + ts.countP (fun t => !t.Status) = ts.length := by
  induction ts with
  | nil => rfl
  | cons t rest ih =>
    cases hs : t.Status <;> simp [List.countP_cons, hs] <;> omega

theorem statTasks_counts (ts : List task) :
    ∀ (r : stat) (d p : Nat), r.done = d → r.inProgress = p →
      ((d + p + ts.length : Nat) : Int) < 2 ^ 63 →
      statTasks ts r
        = ⟨((d + ts.countP (fun t => t.Status) : Nat) : Int),
            ((p + ts.countP (fun t => !t.Status) : Nat) : Int), r.percent⟩ := by
  induction ts with
  | nil =>
    intro r d p hd hp _
    simp [statTasks, ← hd, ← hp]
  | cons t rest ih =>
    intro r d p hd hp hb
    simp only [List.length_cons] at hb
    cases hs : t.Status with
    | true =>
      have hw : wrap64 (r.done + 1) = ((d + 1 : Nat) : Int) := by
        rw [hd, wrap64_of_range _ (by omega) (by omega)]
        simp
      have := ih { r with done := wrap64 (r.done + 1) } (d + 1) p hw hp (by omega)
      simp only [statTasks, hs, if_true, this, List.countP_cons, Bool.not_true]
      simp
      omega
    | false =>
      have hw : wrap64 (r.inProgress + 1) = ((p + 1 : Nat) : Int) := by
        rw [hp, wrap64_of_range _ (by omega) (by omega)]
        simp
      have := ih { r with inProgress := wrap64 (r.inProgress + 1) } d (p + 1) hd hw (by omega)
      simp only [statTasks, hs, Bool.false_eq_true, if_false, this, List.countP_cons,
        Bool.not_false]
      simp
      omega

theorem statBoards_counts (bs : List board) :
    ∀ (r : stat) (d p : Nat), r.done = d → r.inProgress = p →
      ((d + p + (allTasks bs).length : Nat) : Int) < 2 ^ 63 →
      statBoards bs r
        = ⟨((d + (allTasks bs).countP (fun t => t.Status) : Nat) : Int),
            ((p + (allTasks bs).countP (fun t => !t.Status) : Nat) : Int), r.percent⟩ := by
  induction bs with
  | nil =>
    intro r d p hd hp _
    simp [statBoards, allTasks, ← hd, ← hp]
  | cons bd rest ih =>
    intro r d p hd hp hb
    simp only [allTasks, List.length_append] at hb
    have hskip : (if bd.Tasks.length ≠ 0 then statTasks bd.Tasks r else r) = statTasks bd.Tasks r := by
      split
      · rfl
      · rename_i h0
        have : bd.Tasks = [] := List.length_eq_zero.1 (by simpa using h0)
        rw [this]
        rfl
    have h1 := statTasks_counts bd.Tasks r d p hd hp (by omega)
    have hc := countP_status_add bd.Tasks
    have h2 := ih (statTasks bd.Tasks r) (d + bd.Tasks.countP (fun t => t.Status))
      (p + bd.Tasks.countP (fun t => !t.Status)) (by rw [h1]) (by rw [h1])
      (by omega)
    simp only [statBoards, hskip, h2, allTasks, List.countP_append]
    rw [h1]
    simp only [Nat.add_assoc]

/-! ## checkTask, stat: the claims -/

/-- C9: the first board matching `bName` case-insensitively holds a task with
the id `taskId` (`bName` being a name whose lowered form is not changed by
lowering it again, as `checkTask` lowers it twice).  Then `checkTask` sets
`Status = true` on the first task with that id in that board and changes
nothing else: the boards before and after, the id, name and flag of the board,
the tasks before and after, and the id and text of the task are what they
were, in the same order; no error is returned. -/
theorem checkTask_sets_only_that_flag (U : UnicodeTables) (db : database) (taskId : Int)
    (bName : String) (pre : List board) (b : board) (post : List board)
    (hid : ToLower U (ToLower U bName) = ToLower U bName)
    (hdb : db.Boards = pre ++ b :: post)
    (hpre : ∀ x ∈ pre, ¬ nameMatch U x.Name bName) (hb : nameMatch U b.Name bName)
    (ht : ∃ t ∈ b.Tasks, t.ID = taskId) :
    ∃ tpre t tpost, b.Tasks = tpre ++ t :: tpost ∧ (∀ x ∈ tpre, x.ID ≠ taskId) ∧
      t.ID = taskId ∧
      db.checkTask U taskId bName
        = (⟨pre ++ { b with Tasks := tpre ++ { t with Status := true } :: tpost } :: post⟩,
            none) := by
  obtain ⟨tpre, t, tpost, hts, htpre, htid⟩ :=
    exists_first (fun x : task => x.ID = taskId) b.Tasks ht
  refine ⟨tpre, t, tpost, hts, htpre, htid, ?_⟩
  have hpre1 : ∀ x ∈ pre, ¬ nameMatch U x.Name (ToLower U bName) :=
    fun x hx hm => hpre x hx ((nameMatch_lowered U x.Name bName hid).1 hm)
  have hb1 : nameMatch U b.Name (ToLower U bName) := (nameMatch_lowered U b.Name bName hid).2 hb
  have hct : checkTasks taskId b.Tasks = some (tpre ++ { t with Status := true } :: tpost) := by
    rw [hts]
    exact checkTasks_first taskId tpre t tpost htpre htid
  have h1 := checkBoards_first U taskId (ToLower U bName) pre b post _ hpre1 hb1 hct
  rw [← hdb] at h1
  simp only [database.checkTask, h1]

/-- Witness of C9: task 2 of the board `Work` is checked under the name `WORK`. -/
theorem checkTask_sets_only_that_flag_witness :
    ∃ tpre t tpost,
      (⟨2, "Work", false, [⟨1, "a", false⟩, ⟨2, "b", false⟩, ⟨3, "c", false⟩]⟩ : board).Tasks
        = tpre ++ t :: tpost ∧
      (∀ x ∈ tpre, x.ID ≠ 2) ∧ t.ID = 2 ∧
      (database.mk ([⟨1, "home", false, [⟨2, "z", false⟩]⟩]
          ++ ⟨2, "Work", false, [⟨1, "a", false⟩, ⟨2, "b", false⟩, ⟨3, "c", false⟩]⟩
            :: [⟨3, "work", true, []⟩])).checkTask plainTables 2 "WORK"
        = (⟨[⟨1, "home", false, [⟨2, "z", false⟩]⟩]
            ++ { (⟨2, "Work", false, [⟨1, "a", false⟩, ⟨2, "b", false⟩, ⟨3, "c", false⟩]⟩ : board)
                  with Tasks := tpre ++ { t with Status := true } :: tpost }
              :: [⟨3, "work", true, []⟩]⟩, none) :=
  checkTask_sets_only_that_flag plainTables _ 2 "WORK" [⟨1, "home", false, [⟨2, "z", false⟩]⟩]
    ⟨2, "Work", false, [⟨1, "a", false⟩, ⟨2, "b", false⟩, ⟨3, "c", false⟩]⟩
    [⟨3, "work", true, []⟩] (by decide) rfl (by decide) (by decide)
    ⟨⟨2, "b", false⟩, by simp, rfl⟩

/-- C10: for a store whose number of tasks, times 100, stays in the `int64`
range, `stat` returns `done` = the number of tasks with `Status = true` over all
boards, `inProgress` = the number of tasks with `Status = false`, and `percent` =
`done * 100 / (done + inProgress)` with truncating division when there is at
least one task and 0 when there is none; with 3 done and 1 pending task the
result is `{3, 1, 75}`, with no task it is `{0, 0, 0}`. -/
theorem stat_counts_and_percent (db : database)
    (h : 100 * (allTasks db.Boards).length < 2 ^ 63) :
    db.stat = ⟨(doneCount db : Int), (pendingCount db : Int),
        if (allTasks db.Boards).length = 0 then 0
        else Int.tdiv ((doneCount db : Int) * 100) ((doneCount db : Int) + (pendingCount db : Int))⟩ ∧
      (doneCount db = 3 → pendingCount db = 1 → db.stat = ⟨3, 1, 75⟩) ∧
      ((allTasks db.Boards).length = 0 → db.stat = ⟨0, 0, 0⟩) := by
  have hsum : doneCount db + pendingCount db = (allTasks db.Boards).length :=
    countP_status_add _
  have hb : (((0 : Nat) + 0 + (allTasks db.Boards).length : Nat) : Int) < 2 ^ 63 := by
    have h1 : ((100 * (allTasks db.Boards).length : Nat) : Int) < 2 ^ 63 := by exact_mod_cast h
    push_cast at h1 ⊢
    omega
  have hst := statBoards_counts db.Boards ⟨0, 0, 0⟩ 0 0 rfl rfl hb
  simp only [Nat.zero_add] at hst
  have hmain : db.stat = ⟨(doneCount db : Int), (pendingCount db : Int),
        if (allTasks db.Boards).length = 0 then 0
        else Int.tdiv ((doneCount db : Int) * 100)
          ((doneCount db : Int) + (pendingCount db : Int))⟩ := by
    have hd : (allTasks db.Boards).countP (fun t => t.Status) = doneCount db := rfl
    have hp : (allTasks db.Boards).countP (fun t => !t.Status) = pendingCount db := rfl
    rw [hd, hp] at hst
    have h1 : ((100 * (allTasks db.Boards).length : Nat) : Int) < 2 ^ 63 := by exact_mod_cast h
    push_cast at h1
    have hs1 : ((doneCount db : Int) + (pendingCount db : Int))
        = ((allTasks db.Boards).length : Int) := by exact_mod_cast hsum
    by_cases h0 : (allTasks db.Boards).length = 0
    · have hc : ¬ (((doneCount db : Nat) : Int) > 0 ∨ ((pendingCount db : Nat) : Int) > 0) := by
        omega
      simp only [database.stat, hst, if_neg hc, if_pos h0]
    · have hc : ((doneCount db : Nat) : Int) > 0 ∨ ((pendingCount db : Nat) : Int) > 0 := by
        omega
      have hw1 : wrap64 ((doneCount db : Int) * 100) = (doneCount db : Int) * 100 :=
        wrap64_of_range _ (by omega) (by omega)
      have hw2 : wrap64 ((doneCount db : Int) + (pendingCount db : Int))
          = (doneCount db : Int) + (pendingCount db : Int) :=
        wrap64_of_range _ (by omega) (by omega)
      have hq : Int.tdiv ((doneCount db : Int) * 100) ((doneCount db : Int) + (pendingCount db : Int))
          = ((doneCount db * 100 / (doneCount db + pendingCount db) : Nat) : Int) := by
        rw [Int.ofNat_tdiv]
        push_cast
        rfl
      have hle : doneCount db * 100 / (doneCount db + pendingCount db) ≤ doneCount db * 100 :=
        Nat.div_le_self _ _
      have hw3 : wrap64 (Int.tdiv ((doneCount db : Int) * 100)
          ((doneCount db : Int) + (pendingCount db : Int)))
          = Int.tdiv ((doneCount db : Int) * 100) ((doneCount db : Int) + (pendingCount db : Int)) := by
        rw [hq]
        have hq0 : (0 : Int)
            ≤ ((doneCount db * 100 / (doneCount db + pendingCount db) : Nat) : Int) :=
          Int.ofNat_nonneg _
        have hq1 : ((doneCount db * 100 / (doneCount db + pendingCount db) : Nat) : Int)
            ≤ ((doneCount db * 100 : Nat) : Int) := Int.ofNat_le.2 hle
        generalize ((doneCount db * 100 / (doneCount db + pendingCount db) : Nat) : Int) = q
          at hq0 hq1 ⊢
        push_cast at hq1
        exact wrap64_of_range _ (by omega) (by omega)
      simp only [database.stat, hst, if_pos hc, hw1, hw2, hw3, if_neg h0]
  refine ⟨hmain, ?_, ?_⟩
  · intro hd hp
    have h0 : ¬ (allTasks db.Boards).length = 0 := by omega
    rw [hmain, if_neg h0, hd, hp]
    rfl
  · intro h0
    have hd : doneCount db = 0 := by omega
    have hp : pendingCount db = 0 := by omega
    rw [hmain, if_pos h0, hd, hp]
    rfl

/-- Witness of C10: three done tasks and one pending task, on two boards. -/
theorem stat_counts_and_percent_witness :
    (database.mk [⟨1, "a", false, [⟨1, "x", true⟩, ⟨2, "y", false⟩]⟩, ⟨2, "b", false, []⟩,
        ⟨3, "c", true, [⟨1, "z", true⟩, ⟨2, "w", true⟩]⟩]).stat = ⟨3, 1, 75⟩ :=
  (stat_counts_and_percent
    ⟨[⟨1, "a", false, [⟨1, "x", true⟩, ⟨2, "y", false⟩]⟩, ⟨2, "b", false, []⟩,
      ⟨3, "c", true, [⟨1, "z", true⟩, ⟨2, "w", true⟩]⟩]⟩ (by decide)).2.1
    (by decide) (by decide)

/-! ## Lemmas: the calls that change nothing -/

theorem eq_NewDatabase_of_nil (db : database) (h : db.Boards = []) : db = NewDatabase := by
  obtain ⟨bs⟩ := db
  simp only at h
  subst h
  rfl

theorem addTask_empty_rejected (U : UnicodeTables) (t : task) (bName : String)
    (hv : ¬ nameAccepted U bName) :
    ∃ e, InvalidName e ∧ NewDatabase.addTask U t bName = (NewDatabase, some e) := by
  obtain ⟨e, he, h⟩ := addBoard_rejects U NewDatabase ⟨0, bName, false, []⟩ hv
  refine ⟨e, he, ?_⟩
  have hlen : NewDatabase.Boards.length = 0 := rfl
  simp only [database.addTask, if_pos hlen, h]
  rfl

theorem addTask_no_match (U : UnicodeTables) (db : database) (t : task) (bName : String)
    (hne : db.Boards ≠ []) (h : ∀ x ∈ db.Boards, ¬ nameMatch U x.Name bName) :
    db.addTask U t bName = (db, none) := by
  have hlen : ¬ db.Boards.length = 0 := fun h0 => hne (List.length_eq_zero.1 h0)
  simp only [database.addTask, if_neg hlen, addTaskLoop_none U t bName db.Boards h]

theorem checkTasks_none (taskId : Int) (ts : List task) (h : ∀ t ∈ ts, t.ID ≠ taskId) :
    checkTasks taskId ts = none := by
  induction ts with
  | nil => rfl
  | cons a rest ih =>
    have ha : ¬ a.ID = taskId := h a (by simp)
    simp only [checkTasks, if_neg ha, ih (fun x hx => h x (by simp [hx])), Option.map_none']

theorem checkBoards_none (U : UnicodeTables) (taskId : Int) (n : String) (l : List board)
    (h : ∀ x ∈ l, nameMatch U x.Name n → ∀ t ∈ x.Tasks, t.ID ≠ taskId) :
    checkBoards U taskId n l = none := by
  induction l with
  | nil => rfl
  | cons a rest ih =>
    have hrest := ih (fun x hx => h x (by simp [hx]))
    by_cases ha : ToLower U a.Name = ToLower U n
    · have hts := checkTasks_none taskId a.Tasks (h a (by simp) ha)
      simp only [checkBoards, if_pos ha, hts, hrest, Option.map_none']
    · simp only [checkBoards, if_neg ha, hrest, Option.map_none']

/-! ## addTask, checkTask: the calls that change nothing, the claims -/

/-- C11 (amended): on a store with zero boards `addTask` returns the error of
the implicit `addBoard` call.  With a board name that passes the checks of
`addBoard` the board is created, the task is added to it with id 1 and no
error is returned; with any other board name the invalid-name error of
`addBoard` is returned and the store stays empty. -/
theorem addTask_on_empty_store (U : UnicodeTables) (db : database) (t : task)
    (bName : String) (h : db.Boards = []) :
    (nameAccepted U bName →
      db.addTask U t bName = (⟨[⟨1, bName, false, [{ t with ID := 1 }]⟩]⟩, none)) ∧
    (¬ nameAccepted U bName →
      ∃ e, InvalidName e ∧ db.addTask U t bName = (db, some e)) := by
  rw [eq_NewDatabase_of_nil db h]
  exact ⟨fun hv => addTask_empty U t bName hv, fun hv => addTask_empty_rejected U t bName hv⟩

/-- Witness of C11: the name `a.b` holds a punctuation rune. -/
theorem addTask_on_empty_store_witness :
    ∃ e, InvalidName e ∧
      NewDatabase.addTask plainTables ⟨0, "x", false⟩ "a.b" = (NewDatabase, some e) :=
  (addTask_on_empty_store plainTables NewDatabase ⟨0, "x", false⟩ "a.b" rfl).2 (by decide)

/-- Counterexample to C11 as stated: on the empty store `addTask` with the board
name `a b` returns the error of the space check of `addBoard`. -/
theorem addTask_surfaces_error_counterexample :
    NewDatabase.Boards = [] ∧
    NewDatabase.addTask plainTables ⟨0, "x", false⟩ "a b" = (NewDatabase, some errSpaces) ∧
    (NewDatabase.addTask plainTables ⟨0, "x", false⟩ "a b").2 ≠ none := by
  decide

/-- C12: on a store with at least one board, `addTask` with a board name that
matches no board case-insensitively changes nothing (no task, no board) and
returns no error. -/
theorem addTask_unknown_board_noop (U : UnicodeTables) (db : database) (t : task)
    (bName : String) (hne : db.Boards ≠ [])
    (h : ∀ x ∈ db.Boards, ¬ nameMatch U x.Name bName) :
    db.addTask U t bName = (db, none) :=
  addTask_no_match U db t bName hne h

/-- Witness of C12: no board of the store is called `home`. -/
theorem addTask_unknown_board_noop_witness :
    (database.mk [⟨1, "Work", false, [⟨1, "x", false⟩]⟩]).addTask plainTables ⟨0, "y", false⟩ "home"
      = (⟨[⟨1, "Work", false, [⟨1, "x", false⟩]⟩]⟩, none) :=
  addTask_unknown_board_noop plainTables ⟨[⟨1, "Work", false, [⟨1, "x", false⟩]⟩]⟩
    ⟨0, "y", false⟩ "home" (by simp) (by decide)

/-- C13 (amended): when no board matches `bName` case-insensitively, or no
board that matches holds a task with the id `taskId`, `checkTask` leaves the
whole store unchanged and returns no error (`bName` being a name whose lowered
form is not changed by lowering it again). -/
theorem checkTask_noop (U : UnicodeTables) (db : database) (taskId : Int) (bName : String)
    (hid : ToLower U (ToLower U bName) = ToLower U bName)
    (h : (∀ x ∈ db.Boards, ¬ nameMatch U x.Name bName) ∨
      (∀ x ∈ db.Boards, nameMatch U x.Name bName → ∀ t ∈ x.Tasks, t.ID ≠ taskId)) :
    db.checkTask U taskId bName = (db, none) := by
  have h1 : ∀ x ∈ db.Boards, nameMatch U x.Name (ToLower U bName) →
      ∀ t ∈ x.Tasks, t.ID ≠ taskId := by
    intro x hx hm
    have hm1 := (nameMatch_lowered U x.Name bName hid).1 hm
    rcases h with h | h
    · exact absurd hm1 (h x hx)
    · exact h x hx hm1
  simp only [database.checkTask, checkBoards_none U taskId (ToLower U bName) db.Boards h1]

/-- Witness of C13: the only board called `work` has no task 7. -/
theorem checkTask_noop_witness :
    (database.mk [⟨1, "work", false, [⟨1, "x", false⟩]⟩, ⟨2, "home", false, [⟨7, "y", false⟩]⟩]).checkTask
        plainTables 7 "Work"
      = (⟨[⟨1, "work", false, [⟨1, "x", false⟩]⟩, ⟨2, "home", false, [⟨7, "y", false⟩]⟩]⟩, none) :=
  checkTask_noop plainTables
    ⟨[⟨1, "work", false, [⟨1, "x", false⟩]⟩, ⟨2, "home", false, [⟨7, "y", false⟩]⟩]⟩ 7 "Work"
    (by decide) (Or.inr (by decide))

/-- Counterexample to C13 as stated: the first board matching `work` is `Work`
and holds no task with id 1, yet `checkTask` goes on to the board `work` and
sets its task 1 to done: the store has changed. -/
theorem checkTask_later_board_counterexample :
    (nameMatch plainTables "Work" "work" ∧
      ∀ t ∈ (⟨1, "Work", false, []⟩ : board).Tasks, t.ID ≠ 1) ∧
    (database.mk [⟨1, "Work", false, []⟩, ⟨2, "work", false, [⟨1, "x", false⟩]⟩]).checkTask
        plainTables 1 "work"
      = (⟨[⟨1, "Work", false, []⟩, ⟨2, "work", false, [⟨1, "x", true⟩]⟩]⟩, none) ∧
    (database.mk [⟨1, "Work", false, []⟩, ⟨2, "work", false, [⟨1, "x", true⟩]⟩])
      ≠ ⟨[⟨1, "Work", false, []⟩, ⟨2, "work", false, [⟨1, "x", false⟩]⟩]⟩ := by
  decide

/-! ## Lemmas: printDB -/

theorem matchRunes_cons_nil (r : Char) (source : List Char) :
    matchRunes (r :: source) [] = false := by
  simp [matchRunes, matchRune]

theorem matchRunes_cons_cons (r c : Char) (source target : List Char) :
    matchRunes (r :: source) (c :: target)
      = if r = c then matchRunes source target else matchRunes (r :: source) target := by
  by_cases h : r = c
  · simp only [matchRunes, matchRune, if_pos h]
  · simp only [matchRunes, matchRune, if_neg h]

/-- The two loops of `fuzzy.Match` decide whether the source is a subsequence of
the target. -/
theorem matchRunes_iff (source : List Char) :
    ∀ target : List Char, matchRunes source target = true ↔ source.Sublist target := by
  induction source with
  | nil =>
    intro target
    simp [matchRunes]
  | cons r source ih =>
    intro target
    induction target with
    | nil => simp [matchRunes_cons_nil]
    | cons c target iht =>
      rw [matchRunes_cons_cons]
      by_cases h : r = c
      · subst h
        rw [if_pos rfl, ih target]
        exact List.cons_sublist_cons.symm
      · rw [if_neg h, iht]
        constructor
        · intro hs
          exact List.Sublist.cons c hs
        · intro hs
          cases hs with
          | cons _ hs1 => exact hs1
          | cons₂ _ hs1 => exact absurd rfl h

theorem utf8_sublist_le (l1 l2 : List Char) (h : l1.Sublist l2) :
    String.utf8ByteSize.go l1 ≤ String.utf8ByteSize.go l2 := by
  induction h with
  | slnil => exact Nat.le_refl _
  | cons a _ ih =>
    simp only [String.utf8ByteSize.go]
    omega
  | cons₂ a _ ih =>
    simp only [String.utf8ByteSize.go]
    omega

/-- The function `fuzzy.Match` holds exactly when the runes of the source are a
subsequence of the runes of the target, compared exactly. -/
theorem fuzzyMatch_iff (source target : String) :
    fuzzyMatch source target = true ↔ isSubsequence source target := by
  unfold fuzzyMatch isSubsequence
  by_cases h1 : target.utf8ByteSize < source.utf8ByteSize
  · rw [if_pos h1]
    constructor
    · intro h; cases h
    · intro hs
      have := utf8_sublist_le _ _ hs
      have e1 : source.utf8ByteSize = String.utf8ByteSize.go source.data := by
        cases source; rfl
      have e2 : target.utf8ByteSize = String.utf8ByteSize.go target.data := by
        cases target; rfl
      omega
  · rw [if_neg h1]
    by_cases h2 : target.utf8ByteSize = source.utf8ByteSize ∧ source = target
    · rw [if_pos h2, h2.2]
      exact ⟨fun _ => List.Sublist.refl _, fun _ => rfl⟩
    · rw [if_neg h2]
      exact matchRunes_iff _ _

theorem fuzzyMatch_empty (text : String) : fuzzyMatch "" text = true :=
  (fuzzyMatch_iff "" text).2 (List.nil_sublist _)

theorem printTasks_eq (pattern : String) (keep : String → Bool)
    (hk : ∀ text, fuzzyMatch pattern text = keep text) (ts : List task) :
    printTasks pattern ts
      = (ts.filter (fun t => keep t.Text)).map
          (fun t => Printed.taskLine t.ID t.Status t.Text) := by
  induction ts with
  | nil => rfl
  | cons t rest ih =>
    cases hkt : keep t.Text with
    | true =>
      have hf : fuzzyMatch pattern t.Text = true := by rw [hk, hkt]
      simp only [printTasks, hf, if_true, ih, List.filter_cons, hkt, List.map_cons]
    | false =>
      have hf : fuzzyMatch pattern t.Text = false := by rw [hk, hkt]
      simp only [printTasks, hf, Bool.false_eq_true, if_false, ih, List.filter_cons, hkt]

theorem printBoards_eq (pattern : String) (keep : String → Bool)
    (hk : ∀ text, fuzzyMatch pattern text = keep text) (bs : List board) :
    printBoards pattern bs = listing keep bs := by
  induction bs with
  | nil => rfl
  | cons bd rest ih =>
    simp only [printBoards, listing, printTasks_eq pattern keep hk, ih, List.singleton_append,
      List.cons_append, List.append_assoc, List.nil_append]

theorem printDB_dropLast (db : database) (pattern : String) :
    (db.printDB pattern).dropLast = printBoards pattern db.Boards := by
  unfold database.printDB
  simp only []
  split <;> exact List.dropLast_concat

theorem printDB_getLast (db : database) (pattern : String) :
    (db.printDB pattern).getLast?
      = some (if db.stat.done = 0 ∧ db.stat.inProgress = 0 then Printed.noTasks
          else Printed.summary db.stat.percent db.stat.done db.stat.inProgress) := by
  unfold database.printDB
  simp only []
  split <;> exact List.getLast?_concat _

theorem printTasks_lines (pattern : String) (ts : List task) :
    ∀ l ∈ printTasks pattern ts, ∃ t ∈ ts, l = Printed.taskLine t.ID t.Status t.Text := by
  induction ts with
  | nil => simp [printTasks]
  | cons t rest ih =>
    intro l hl
    simp only [printTasks] at hl
    split at hl
    · rcases List.mem_cons.1 hl with rfl | hl
      · exact ⟨t, by simp, rfl⟩
      · obtain ⟨x, hx, e⟩ := ih l hl
        exact ⟨x, by simp [hx], e⟩
    · obtain ⟨x, hx, e⟩ := ih l hl
      exact ⟨x, by simp [hx], e⟩

theorem printBoards_lines (pattern : String) (bs : List board) :
    ∀ l ∈ printBoards pattern bs,
      l ≠ Printed.noTasks ∧ ∀ a b c, l ≠ Printed.summary a b c := by
  induction bs with
  | nil => simp [printBoards]
  | cons bd rest ih =>
    intro l hl
    simp only [printBoards, List.mem_cons, List.mem_append] at hl
    rcases hl with rfl | hl | rfl | hl
    · exact ⟨by simp, by simp⟩
    · obtain ⟨t, _, rfl⟩ := printTasks_lines pattern bd.Tasks l hl
      exact ⟨by simp, by simp⟩
    · exact ⟨by simp, by simp⟩
    · exact ih l hl


/-! ## printDB: the claims -/

/-- C14 (amended): `printDB` lists the boards in insertion order and, under each
board, exactly those of its tasks (in insertion order, with their ids and
texts) whose text matches the pattern, where a text matches iff the runes of
the pattern appear as a subsequence of the text, each rune compared exactly
(upper and lower case are different runes). -/
theorem printDB_lists_subsequence_matches (db : database) (pattern : String) :
    (db.printDB pattern).dropLast
      = listing (fun text => decide (isSubsequence pattern text)) db.Boards := by
  rw [printDB_dropLast]
  apply printBoards_eq
  intro text
  by_cases h : isSubsequence pattern text
  · rw [(fuzzyMatch_iff pattern text).2 h, decide_eq_true h]
  · have hf : fuzzyMatch pattern text = false := by
      cases hm : fuzzyMatch pattern text with
      | false => rfl
      | true => exact absurd ((fuzzyMatch_iff pattern text).1 hm) h
    rw [hf, decide_eq_false h]

/-- Counterexample to C14 as stated: the pattern `A` is a subsequence of the
text `a` when the two are compared case-insensitively, but `printDB` does not
list the task: its listing is not the one of the case-insensitive matches. -/
theorem printDB_case_counterexample :
    isSubsequenceFold plainTables "A" "a" ∧
    ((database.mk [⟨1, "b", false, [⟨1, "a", false⟩]⟩]).printDB "A").dropLast
      = [Printed.boardName "b", Printed.blank] ∧
    ((database.mk [⟨1, "b", false, [⟨1, "a", false⟩]⟩]).printDB "A").dropLast
      ≠ listing (fun text => decide (isSubsequenceFold plainTables "A" text))
          (database.mk [⟨1, "b", false, [⟨1, "a", false⟩]⟩]).Boards := by
  decide

/-- C15: with the empty pattern `printDB` lists every task of every board: its
listing is the one in which no task is filtered out. -/
theorem printDB_empty_pattern_lists_all (db : database) :
    (db.printDB "").dropLast = listing (fun _ => true) db.Boards ∧
    ∀ bd ∈ db.Boards, ∀ t ∈ bd.Tasks,
      Printed.taskLine t.ID t.Status t.Text ∈ (db.printDB "").dropLast := by
  have h : (db.printDB "").dropLast = listing (fun _ => true) db.Boards := by
    rw [printDB_dropLast]
    exact printBoards_eq "" (fun _ => true) (fun text => fuzzyMatch_empty text) db.Boards
  refine ⟨h, ?_⟩
  rw [h]
  intro bd hbd t ht
  generalize db.Boards = bs at hbd
  induction bs with
  | nil => simp at hbd
  | cons a rest ih =>
    simp only [listing, List.mem_append, List.mem_cons, List.mem_map, List.mem_filter]
    rcases List.mem_cons.1 hbd with rfl | hbd
    · left; left; right
      exact ⟨t, ⟨ht, trivial⟩, rfl⟩
    · right
      exact ih hbd


/-! ## Lemmas: the value of stat -/

theorem allTasks_append (l1 l2 : List board) :
    allTasks (l1 ++ l2) = allTasks l1 ++ allTasks l2 := by
  induction l1 with
  | nil => rfl
  | cons a rest ih =>
    show a.Tasks ++ allTasks (rest ++ l2) = (a.Tasks ++ allTasks rest) ++ allTasks l2
    rw [ih, List.append_assoc]

/-- The counters of `stat` before the percentage is filled in. -/
theorem statBoards_zero (db : database) (h : (allTasks db.Boards).length < 2 ^ 63) :
    statBoards db.Boards ⟨0, 0, 0⟩ = ⟨(doneCount db : Int), (pendingCount db : Int), 0⟩ := by
  have hb : (((0 : Nat) + 0 + (allTasks db.Boards).length : Nat) : Int) < 2 ^ 63 := by
    have h1 : (((allTasks db.Boards).length : Nat) : Int) < 2 ^ 63 := by exact_mod_cast h
    push_cast at h1 ⊢
    omega
  have hst := statBoards_counts db.Boards ⟨0, 0, 0⟩ 0 0 rfl rfl hb
  simp only [Nat.zero_add] at hst
  exact hst

theorem stat_counters (db : database) (h : (allTasks db.Boards).length < 2 ^ 63) :
    db.stat.done = (doneCount db : Int) ∧ db.stat.inProgress = (pendingCount db : Int) := by
  have hst := statBoards_zero db h
  unfold database.stat
  simp only [hst]
  split <;> exact ⟨rfl, rfl⟩

theorem stat_value (db : database) (h : 100 * (allTasks db.Boards).length < 2 ^ 63) :
    db.stat = ⟨(doneCount db : Int), (pendingCount db : Int),
        if (allTasks db.Boards).length = 0 then 0
        else ((doneCount db * 100 / (doneCount db + pendingCount db) : Nat) : Int)⟩ := by
  have hsum : doneCount db + pendingCount db = (allTasks db.Boards).length :=
    countP_status_add _
  have hst := statBoards_zero db (by omega)
  have h1 : ((100 * (allTasks db.Boards).length : Nat) : Int) < 2 ^ 63 := by exact_mod_cast h
  push_cast at h1
  have hs1 : ((doneCount db : Int) + (pendingCount db : Int))
      = ((allTasks db.Boards).length : Int) := by exact_mod_cast hsum
  by_cases h0 : (allTasks db.Boards).length = 0
  · have hc : ¬ (((doneCount db : Nat) : Int) > 0 ∨ ((pendingCount db : Nat) : Int) > 0) := by
      omega
    simp only [database.stat, hst, if_neg hc, if_pos h0]
  · have hc : ((doneCount db : Nat) : Int) > 0 ∨ ((pendingCount db : Nat) : Int) > 0 := by
      omega
    have hw1 : wrap64 ((doneCount db : Int) * 100) = (doneCount db : Int) * 100 :=
      wrap64_of_range _ (by omega) (by omega)
    have hw2 : wrap64 ((doneCount db : Int) + (pendingCount db : Int))
        = (doneCount db : Int) + (pendingCount db : Int) :=
      wrap64_of_range _ (by omega) (by omega)
    have hq : Int.tdiv ((doneCount db : Int) * 100) ((doneCount db : Int) + (pendingCount db : Int))
        = ((doneCount db * 100 / (doneCount db + pendingCount db) : Nat) : Int) := by
      rw [Int.ofNat_tdiv]
      push_cast
      rfl
    have hle : doneCount db * 100 / (doneCount db + pendingCount db) ≤ doneCount db * 100 :=
      Nat.div_le_self _ _
    have hw3 : wrap64 ((doneCount db * 100 / (doneCount db + pendingCount db) : Nat) : Int)
        = ((doneCount db * 100 / (doneCount db + pendingCount db) : Nat) : Int) := by
      have hq0 : (0 : Int)
          ≤ ((doneCount db * 100 / (doneCount db + pendingCount db) : Nat) : Int) :=
        Int.ofNat_nonneg _
      have hq1 : ((doneCount db * 100 / (doneCount db + pendingCount db) : Nat) : Int)
          ≤ ((doneCount db * 100 : Nat) : Int) := Int.ofNat_le.2 hle
      generalize ((doneCount db * 100 / (doneCount db + pendingCount db) : Nat) : Int) = q
        at hq0 hq1 ⊢
      push_cast at hq1
      exact wrap64_of_range _ (by omega) (by omega)
    simp only [database.stat, hst, if_pos hc, hw1, hw2, hq, hw3, if_neg h0]

theorem pendingCount_eq_zero (db : database) :
    pendingCount db = 0 ↔ ∀ t ∈ allTasks db.Boards, t.Status = true := by
  unfold pendingCount
  rw [List.countP_eq_zero]
  constructor
  · intro h t ht
    have := h t ht
    simpa using this
  · intro h t ht
    simp [h t ht]

/-- What `checkTask` does when the first matching board holds the task. -/
theorem checkTask_first (U : UnicodeTables) (db : database) (taskId : Int)
    (bName : String) (pre : List board) (b : board) (post : List board)
    (tpre : List task) (t : task) (tpost : List task)
    (hid : ToLower U (ToLower U bName) = ToLower U bName)
    (hdb : db.Boards = pre ++ b :: post)
    (hpre : ∀ x ∈ pre, ¬ nameMatch U x.Name bName) (hb : nameMatch U b.Name bName)
    (hts : b.Tasks = tpre ++ t :: tpost) (htpre : ∀ x ∈ tpre, x.ID ≠ taskId)
    (htid : t.ID = taskId) :
    db.checkTask U taskId bName
      = (⟨pre ++ { b with Tasks := tpre ++ { t with Status := true } :: tpost } :: post⟩,
          none) := by
  have hpre1 : ∀ x ∈ pre, ¬ nameMatch U x.Name (ToLower U bName) :=
    fun x hx hm => hpre x hx ((nameMatch_lowered U x.Name bName hid).1 hm)
  have hb1 : nameMatch U b.Name (ToLower U bName) := (nameMatch_lowered U b.Name bName hid).2 hb
  have hct : checkTasks taskId b.Tasks = some (tpre ++ { t with Status := true } :: tpost) := by
    rw [hts]
    exact checkTasks_first taskId tpre t tpost htpre htid
  have h1 := checkBoards_first U taskId (ToLower U bName) pre b post _ hpre1 hb1 hct
  rw [← hdb] at h1
  simp only [database.checkTask, h1]


theorem counts_change (pre : List board) (bid : Int) (bname : String) (bstatus : Bool)
    (tpre : List task) (t : task) (tpost : List task) (post : List board)
    (hst : t.Status = false) :
    doneCount ⟨pre ++ ⟨bid, bname, bstatus, tpre ++ { t with Status := true } :: tpost⟩ :: post⟩
      = doneCount ⟨pre ++ ⟨bid, bname, bstatus, tpre ++ t :: tpost⟩ :: post⟩ + 1 ∧
    pendingCount ⟨pre ++ ⟨bid, bname, bstatus, tpre ++ { t with Status := true } :: tpost⟩ :: post⟩
        + 1
      = pendingCount ⟨pre ++ ⟨bid, bname, bstatus, tpre ++ t :: tpost⟩ :: post⟩ ∧
    (allTasks (pre ++ ⟨bid, bname, bstatus, tpre ++ { t with Status := true } :: tpost⟩ :: post)).length
      = (allTasks (pre ++ ⟨bid, bname, bstatus, tpre ++ t :: tpost⟩ :: post)).length := by
  simp only [doneCount, pendingCount, allTasks_append, allTasks, List.countP_append,
    List.countP_cons, hst, List.length_append, List.length_cons, Bool.not_true, Bool.not_false,
    Bool.false_eq_true, if_false, if_true]
  refine ⟨by omega, by omega, trivial⟩

/-! ## stat after checkTask, the summary of printDB, the percentage: the claims -/

/-- C17: in a store whose task ids are unique within each board (and with fewer
than 2^63 tasks), `checkTask` targets a task `t` of the first board matching
`bName` (`bName` being a name whose lowered form is not changed by lowering it
again).  If `t` was pending, `stat` afterwards has `done` one greater and
`inProgress` one smaller; if `t` was already done, `stat` is unchanged; in both
cases `done + inProgress` is unchanged. -/
theorem checkTask_moves_one_count (U : UnicodeTables) (db : database) (taskId : Int)
    (bName : String) (pre : List board) (b : board) (post : List board)
    (tpre : List task) (t : task) (tpost : List task)
    (hid : ToLower U (ToLower U bName) = ToLower U bName)
    (hN : (allTasks db.Boards).length < 2 ^ 63)
    (huniq : ∀ x ∈ db.Boards, (x.Tasks.map (fun y => y.ID)).Nodup)
    (hdb : db.Boards = pre ++ b :: post)
    (hpre : ∀ x ∈ pre, ¬ nameMatch U x.Name bName) (hb : nameMatch U b.Name bName)
    (hts : b.Tasks = tpre ++ t :: tpost) (htid : t.ID = taskId) :
    (t.Status = false →
      (db.checkTask U taskId bName).1.stat.done = db.stat.done + 1 ∧
      (db.checkTask U taskId bName).1.stat.inProgress = db.stat.inProgress - 1) ∧
    (t.Status = true → (db.checkTask U taskId bName).1.stat = db.stat) ∧
    (db.checkTask U taskId bName).1.stat.done + (db.checkTask U taskId bName).1.stat.inProgress
      = db.stat.done + db.stat.inProgress := by
  have htpre : ∀ x ∈ tpre, x.ID ≠ taskId := by
    intro x hx hxe
    have hnd := huniq b (by rw [hdb]; simp)
    rw [hts, List.map_append, List.map_cons] at hnd
    have hdis := (List.nodup_append.1 hnd).2.2
    exact hdis (List.mem_map.2 ⟨x, hx, rfl⟩) (by rw [hxe, htid]; simp)
  have hres := checkTask_first U db taskId bName pre b post tpre t tpost hid hdb hpre hb hts
    htpre htid
  rw [hres]
  obtain ⟨bs⟩ := db
  obtain ⟨bid, bname, bstatus, btasks⟩ := b
  simp only at hdb hts hN ⊢
  subst hdb hts
  cases hst : t.Status with
  | true =>
    have ht1 : ({ t with Status := true } : task) = t := by
      cases t
      simp only at hst
      subst hst
      rfl
    rw [ht1]
    exact ⟨fun h => (by cases h), fun _ => rfl, rfl⟩
  | false =>
    obtain ⟨hd, hp, hl⟩ := counts_change pre bid bname bstatus tpre t tpost post hst
    have hs0 := stat_counters
      ⟨pre ++ ⟨bid, bname, bstatus, tpre ++ t :: tpost⟩ :: post⟩ hN
    have hs1 := stat_counters
      ⟨pre ++ ⟨bid, bname, bstatus, tpre ++ { t with Status := true } :: tpost⟩ :: post⟩
      (by rw [hl]; exact hN)
    rw [hs1.1, hs1.2, hs0.1, hs0.2, hd, ← hp]
    push_cast
    refine ⟨fun _ => ⟨rfl, by omega⟩, fun h => (by cases h), by omega⟩

/-- Witness of C17: task 2 of `Work`, pending, is checked. -/
theorem checkTask_moves_one_count_witness :
    ((database.mk [⟨1, "Work", false, [⟨1, "a", true⟩, ⟨2, "b", false⟩]⟩]).checkTask
        plainTables 2 "work").1.stat.done
      = (database.mk [⟨1, "Work", false, [⟨1, "a", true⟩, ⟨2, "b", false⟩]⟩]).stat.done + 1 ∧
    ((database.mk [⟨1, "Work", false, [⟨1, "a", true⟩, ⟨2, "b", false⟩]⟩]).checkTask
        plainTables 2 "work").1.stat.inProgress
      = (database.mk [⟨1, "Work", false, [⟨1, "a", true⟩, ⟨2, "b", false⟩]⟩]).stat.inProgress
          - 1 :=
  (checkTask_moves_one_count plainTables
    ⟨[⟨1, "Work", false, [⟨1, "a", true⟩, ⟨2, "b", false⟩]⟩]⟩ 2 "work" []
    ⟨1, "Work", false, [⟨1, "a", true⟩, ⟨2, "b", false⟩]⟩ [] [⟨1, "a", true⟩]
    ⟨2, "b", false⟩ [] (by decide) (by decide) (by decide) rfl (by decide) (by decide) rfl rfl).1
    rfl

/-- C18: the summary that `printDB` prints after the boards is the same for
every pattern.  It is the "no tasks" message exactly when `stat` gives `done = 0`
and `inProgress = 0`, which (below 2^63 tasks) is exactly when the store has no
task at all, and otherwise the statistics computed by `stat` over all tasks;
nothing printed before it is a summary. -/
theorem printDB_summary_ignores_pattern (db : database) (p q : String) :
    (db.printDB p).getLast? = (db.printDB q).getLast? ∧
    (db.printDB p).getLast?
      = some (if db.stat.done = 0 ∧ db.stat.inProgress = 0 then Printed.noTasks
          else Printed.summary db.stat.percent db.stat.done db.stat.inProgress) ∧
    (∀ l ∈ (db.printDB p).dropLast,
      l ≠ Printed.noTasks ∧ ∀ a b c, l ≠ Printed.summary a b c) ∧
    ((allTasks db.Boards).length < 2 ^ 63 →
      ((db.stat.done = 0 ∧ db.stat.inProgress = 0) ↔ allTasks db.Boards = [])) := by
  refine ⟨by rw [printDB_getLast, printDB_getLast], printDB_getLast db p, ?_, ?_⟩
  · rw [printDB_dropLast]
    exact printBoards_lines p db.Boards
  · intro hN
    obtain ⟨h1, h2⟩ := stat_counters db hN
    have hsum : doneCount db + pendingCount db = (allTasks db.Boards).length :=
      countP_status_add _
    rw [h1, h2, ← List.length_eq_zero]
    constructor
    · rintro ⟨hd, hp⟩
      have hd1 : doneCount db = 0 := by exact_mod_cast hd
      have hp1 : pendingCount db = 0 := by exact_mod_cast hp
      omega
    · intro h0
      have hd1 : doneCount db = 0 := by omega
      have hp1 : pendingCount db = 0 := by omega
      rw [hd1, hp1]
      exact ⟨rfl, rfl⟩

/-- C20: for a store whose number of tasks, times 100, stays in the `int64`
range, the percentage of `stat` lies between 0 and 100, and it is 100 exactly
when the store has at least one task and every task is done. -/
theorem stat_percent_range (db : database)
    (h : 100 * (allTasks db.Boards).length < 2 ^ 63) :
    0 ≤ db.stat.percent ∧ db.stat.percent ≤ 100 ∧
    (db.stat.percent = 100 ↔
      (allTasks db.Boards ≠ [] ∧ ∀ t ∈ allTasks db.Boards, t.Status = true)) := by
  have hsum : doneCount db + pendingCount db = (allTasks db.Boards).length :=
    countP_status_add _
  rw [stat_value db h, ← pendingCount_eq_zero, Ne, ← List.length_eq_zero]
  simp only
  by_cases h0 : (allTasks db.Boards).length = 0
  · rw [if_pos h0]
    refine ⟨le_refl 0, by decide, ?_⟩
    constructor
    · intro hc; cases hc
    · intro hc; exact absurd h0 hc.1
  · rw [if_neg h0]
    have hpos : 0 < doneCount db + pendingCount db := by omega
    have hle : doneCount db * 100 / (doneCount db + pendingCount db) ≤ 100 := by
      apply Nat.div_le_of_le_mul
      nlinarith
    refine ⟨Int.ofNat_nonneg _, by exact_mod_cast hle, ?_⟩
    constructor
    · intro hq
      have hq1 : doneCount db * 100 / (doneCount db + pendingCount db) = 100 := by
        exact_mod_cast hq
      refine ⟨h0, ?_⟩
      by_contra hp
      have hlt : doneCount db * 100 / (doneCount db + pendingCount db) < 100 := by
        rw [Nat.div_lt_iff_lt_mul hpos]
        nlinarith [Nat.pos_of_ne_zero hp]
      omega
    · rintro ⟨_, hp⟩
      rw [hp, Nat.add_zero] at hpos ⊢
      rw [Nat.mul_div_cancel_left _ hpos]
      rfl

/-- Witness of C20: one done task out of three gives 33 percent. -/
theorem stat_percent_range_witness :
    0 ≤ (database.mk [⟨1, "a", false, [⟨1, "x", true⟩, ⟨2, "y", false⟩, ⟨3, "z", false⟩]⟩]).stat.percent ∧
    (database.mk [⟨1, "a", false, [⟨1, "x", true⟩, ⟨2, "y", false⟩, ⟨3, "z", false⟩]⟩]).stat.percent
      ≤ 100 ∧
    ((database.mk [⟨1, "a", false, [⟨1, "x", true⟩, ⟨2, "y", false⟩, ⟨3, "z", false⟩]⟩]).stat.percent
        = 100 ↔
      (allTasks (database.mk
          [⟨1, "a", false, [⟨1, "x", true⟩, ⟨2, "y", false⟩, ⟨3, "z", false⟩]⟩]).Boards ≠ [] ∧
        ∀ t ∈ allTasks (database.mk
          [⟨1, "a", false, [⟨1, "x", true⟩, ⟨2, "y", false⟩, ⟨3, "z", false⟩]⟩]).Boards,
          t.Status = true)) :=
  stat_percent_range ⟨[⟨1, "a", false, [⟨1, "x", true⟩, ⟨2, "y", false⟩, ⟨3, "z", false⟩]⟩]⟩
    (by decide)


/-! ## Lemmas: boards that addTask cannot reach -/

theorem addTaskLoop_cons_some (U : UnicodeTables) (t : task) (n : String) (x : board)
    (rest r : List board) (hx : ¬ nameMatch U x.Name n)
    (h : addTaskLoop U t n (x :: rest) = some r) :
    ∃ r1, addTaskLoop U t n rest = some r1 ∧ r = x :: r1 := by
  have hx1 : ¬ ToLower U x.Name = ToLower U n := hx
  simp only [addTaskLoop, if_neg hx1, Option.map_eq_some'] at h
  obtain ⟨r1, h1, h2⟩ := h
  exact ⟨r1, h1, h2.symm⟩

theorem addTaskLoop_cons_match (U : UnicodeTables) (t : task) (n : String) (x : board)
    (rest r : List board) (hx : nameMatch U x.Name n)
    (h : addTaskLoop U t n (x :: rest) = some r) :
    ∃ x1, r = x1 :: rest := by
  have hx1 : ToLower U x.Name = ToLower U n := hx
  simp only [addTaskLoop, if_pos hx1, Option.some.injEq] at h
  exact ⟨_, h.symm⟩

/-- A board that does not match the name stays where it is. -/
theorem addTaskLoop_keeps_other (U : UnicodeTables) (t : task) (n : String) (b : board)
    (l3 : List board) (hb : ¬ nameMatch U b.Name n) (l2 : List board) :
    ∀ r, addTaskLoop U t n (l2 ++ b :: l3) = some r →
      ∃ front back, r = front ++ b :: back ∧ front.length = l2.length := by
  induction l2 with
  | nil =>
    intro r h
    obtain ⟨r1, _, e⟩ := addTaskLoop_cons_some U t n b l3 r hb h
    exact ⟨[], r1, e, rfl⟩
  | cons x rest ih =>
    intro r h
    by_cases hx : nameMatch U x.Name n
    · obtain ⟨x1, e⟩ := addTaskLoop_cons_match U t n x _ r hx h
      exact ⟨x1 :: rest, l3, by rw [e]; rfl, rfl⟩
    · obtain ⟨r1, h1, e⟩ := addTaskLoop_cons_some U t n x _ r hx h
      obtain ⟨front, back, e1, hl⟩ := ih r1 h1
      exact ⟨x :: front, back, by rw [e, e1]; rfl, by simp [hl]⟩

/-- A board behind a board with the same lowered name stays where it is. -/
theorem addTaskLoop_keeps_shadowed (U : UnicodeTables) (t : task) (n : String) (a b : board)
    (l2 l3 : List board) (hab : nameMatch U b.Name a.Name) (l1 : List board) :
    ∀ r, addTaskLoop U t n (l1 ++ a :: (l2 ++ b :: l3)) = some r →
      ∃ front back, r = front ++ b :: back ∧ front.length = l1.length + 1 + l2.length := by
  induction l1 with
  | nil =>
    intro r h
    by_cases ha : nameMatch U a.Name n
    · obtain ⟨x1, e⟩ := addTaskLoop_cons_match U t n a _ r ha h
      exact ⟨x1 :: l2, l3, by rw [e]; rfl, by simp; omega⟩
    · have hb : ¬ nameMatch U b.Name n := by
        intro hbn
        apply ha
        unfold nameMatch at hab hbn ⊢
        rw [← hab, hbn]
      obtain ⟨r1, h1, e⟩ := addTaskLoop_cons_some U t n a _ r ha h
      obtain ⟨front, back, e1, hl⟩ := addTaskLoop_keeps_other U t n b l3 hb l2 r1 h1
      exact ⟨a :: front, back, by rw [e, e1]; rfl, by simp [hl]; omega⟩
  | cons x rest ih =>
    intro r h
    by_cases hx : nameMatch U x.Name n
    · obtain ⟨x1, e⟩ := addTaskLoop_cons_match U t n x _ r hx h
      exact ⟨x1 :: (rest ++ a :: l2), l3, by rw [e]; simp, by simp; omega⟩
    · obtain ⟨r1, h1, e⟩ := addTaskLoop_cons_some U t n x _ r hx h
      obtain ⟨front, back, e1, hl⟩ := ih r1 h1
      exact ⟨x :: front, back, by rw [e, e1]; rfl, by simp [hl]; omega⟩

/-! ## Boards that addTask cannot reach: the claim -/

/-- C19: in a store in which the board `b` comes after a board `a` whose name is
the same case-insensitively, `addTask` with any task and any board name leaves
`b` at its place with its task sequence (and all its other fields) unchanged:
the later board never receives a task. -/
theorem addTask_never_reaches_shadowed_board (U : UnicodeTables) (db : database) (t : task)
    (bName : String) (l1 : List board) (a : board) (l2 : List board) (b : board)
    (l3 : List board) (hdb : db.Boards = l1 ++ a :: (l2 ++ b :: l3))
    (hab : nameMatch U b.Name a.Name) :
    ∃ front back, (db.addTask U t bName).1.Boards = front ++ b :: back ∧
      front.length = (l1 ++ a :: l2).length := by
  have hlen : ¬ db.Boards.length = 0 := by rw [hdb]; simp
  have hl : (l1 ++ a :: l2).length = l1.length + 1 + l2.length := by simp; omega
  rw [hl]
  cases hloop : addTaskLoop U t bName db.Boards with
  | none =>
    refine ⟨l1 ++ a :: l2, l3, ?_, hl⟩
    simp only [database.addTask, if_neg hlen]
    rw [hloop]
    simp only [hdb, List.append_assoc, List.cons_append]
  | some r =>
    have h1 := hloop
    rw [hdb] at h1
    obtain ⟨front, back, e, hf⟩ := addTaskLoop_keeps_shadowed U t bName a b l2 l3 hab l1 r h1
    refine ⟨front, back, ?_, hf⟩
    simp only [database.addTask, if_neg hlen]
    rw [hloop]
    exact e

/-- Witness of C19: `Work` shadows `work`; a task for `work` goes to `Work`. -/
theorem addTask_never_reaches_shadowed_board_witness :
    ∃ front back,
      ((database.mk [⟨1, "Work", false, []⟩, ⟨2, "work", false, []⟩]).addTask plainTables
          ⟨0, "x", false⟩ "work").1.Boards
        = front ++ (⟨2, "work", false, []⟩ : board) :: back ∧
      front.length = (([] : List board) ++ (⟨1, "Work", false, []⟩ : board) :: []).length :=
  addTask_never_reaches_shadowed_board plainTables
    ⟨[⟨1, "Work", false, []⟩, ⟨2, "work", false, []⟩]⟩ ⟨0, "x", false⟩ "work"
    [] ⟨1, "Work", false, []⟩ [] ⟨2, "work", false, []⟩ [] rfl (by decide)


/-! ## Lemmas: the ids of the reachable stores -/

theorem idsUpTo_succ (n : Nat) : idsUpTo (n + 1) = idsUpTo n ++ [(n : Int) + 1] := by
  simp [idsUpTo, List.range_succ]

theorem mem_idsUpTo (n : Nat) (i : Int) : i ∈ idsUpTo n ↔ 1 ≤ i ∧ i ≤ n := by
  simp only [idsUpTo, List.mem_map, List.mem_range]
  constructor
  · rintro ⟨a, ha, rfl⟩
    omega
  · rintro ⟨h1, h2⟩
    exact ⟨(i - 1).toNat, by omega, by omega⟩

theorem idsUpTo_nodup (n : Nat) : (idsUpTo n).Nodup := by
  unfold idsUpTo
  apply List.Nodup.map _ (List.nodup_range n)
  intro a b h
  simp only at h
  omega

theorem isMaxOrZero_idsUpTo (n : Nat) (m : Int) (h : IsMaxOrZero (idsUpTo n) m) :
    m = n := by
  obtain ⟨h0, h1, h2⟩ := h
  cases n with
  | zero =>
    rcases h2 with h2 | h2
    · simpa using h2
    · simp [idsUpTo] at h2
  | succ k =>
    have hk := h1 ((k + 1 : Nat) : Int) ((mem_idsUpTo _ _).2 ⟨by push_cast; omega, le_refl _⟩)
    rcases h2 with h2 | h2
    · push_cast at hk; omega
    · have := ((mem_idsUpTo _ _).1 h2).2
      omega

theorem numbered_of_idShape (bs1 bs : List board) (he : idShape bs1 = idShape bs)
    (h : Numbered bs) : Numbered bs1 := by
  have hlen : bs1.length = bs.length := by
    have := congrArg List.length he
    simpa [idShape] using this
  have hids : bs1.map (fun b => b.ID) = bs.map (fun b => b.ID) := by
    have := congrArg (List.map Prod.fst) he
    simpa [idShape, List.map_map, Function.comp] using this
  refine ⟨?_, ?_⟩
  · intro hl
    rw [hids, hlen]
    exact h.1 (by omega)
  · intro b hb hl
    have hm : (b.ID, b.Tasks.map (fun t => t.ID)) ∈ idShape bs1 :=
      List.mem_map.2 ⟨b, hb, rfl⟩
    rw [he] at hm
    obtain ⟨c, hc, hce⟩ := List.mem_map.1 hm
    have hct : c.Tasks.map (fun t => t.ID) = b.Tasks.map (fun t => t.ID) :=
      congrArg Prod.snd hce
    have hcl : c.Tasks.length = b.Tasks.length := by
      have := congrArg List.length hct
      simpa using this
    rw [← hct, ← hcl]
    exact h.2 c hc (by omega)

theorem numbered_addBoard (U : UnicodeTables) (db : database) (name : String) (active : Bool)
    (h : Numbered db.Boards) : Numbered (db.addBoard U ⟨0, name, active, []⟩).1.Boards := by
  by_cases hv : nameAccepted U name
  · by_cases hd : ∃ x ∈ db.Boards, x.Name = name
    · rw [addBoard_taken U db ⟨0, name, active, []⟩ hv hd]
      exact h
    · obtain ⟨m, hm, he⟩ := addBoard_accepts U db ⟨0, name, active, []⟩ hv (by simpa using hd)
      rw [he]
      refine ⟨?_, ?_⟩
      · intro hl
        simp only [List.length_append, List.length_singleton] at hl ⊢
        have hold := h.1 (by omega)
        rw [hold] at hm
        have hmn := isMaxOrZero_idsUpTo _ _ hm
        have hw : wrap64 (m + 1) = (db.Boards.length : Int) + 1 := by
          rw [hmn]
          have hl1 : ((db.Boards.length + 1 : Nat) : Int) < 2 ^ 63 := by exact_mod_cast hl
          push_cast at hl1
          exact wrap64_of_range _ (by omega) (by omega)
        rw [List.map_append, hold, idsUpTo_succ]
        simp only [List.map_cons, List.map_nil, hw]
      · intro b hb hl
        rcases List.mem_append.1 hb with hb | hb
        · exact h.2 b hb hl
        · simp only [List.mem_singleton] at hb
          subst hb
          rfl
  · obtain ⟨e, _, he⟩ := addBoard_rejects U db ⟨0, name, active, []⟩ hv
    rw [he]
    exact h

theorem numbered_addTask (U : UnicodeTables) (db : database) (t : task) (bName : String)
    (h : Numbered db.Boards) : Numbered (db.addTask U t bName).1.Boards := by
  by_cases hnil : db.Boards = []
  · rw [eq_NewDatabase_of_nil db hnil]
    by_cases hv : nameAccepted U bName
    · rw [addTask_empty U t bName hv]
      refine ⟨fun _ => rfl, ?_⟩
      intro b hb _
      simp only [List.mem_singleton] at hb
      subst hb
      rfl
    · obtain ⟨e, _, he⟩ := addTask_empty_rejected U t bName hv
      rw [he]
      exact ⟨fun _ => rfl, by simp [NewDatabase]⟩
  · by_cases hm : ∃ x ∈ db.Boards, nameMatch U x.Name bName
    · obtain ⟨pre, b, post, hdb, hpre, hb⟩ :=
        exists_first (fun x => nameMatch U x.Name bName) db.Boards hm
      rw [addTask_first U db t bName pre b post hdb hpre hb]
      rw [hdb] at h
      refine ⟨?_, ?_⟩
      · intro hl
        have := h.1 (by simpa using hl)
        simpa using this
      · intro x hx hl
        simp only [List.mem_append, List.mem_cons] at hx
        rcases hx with hx | rfl | hx
        · exact h.2 x (by simp [hx]) hl
        · simp only [List.length_append, List.length_singleton] at hl ⊢
          have hold := h.2 b (by simp) (by omega)
          have hmax := maxTaskID_isMaxOrZero b.Tasks
          rw [hold] at hmax
          have hmn := isMaxOrZero_idsUpTo _ _ hmax
          have hw : wrap64 (maxTaskID b.Tasks 0 + 1) = (b.Tasks.length : Int) + 1 := by
            rw [hmn]
            have hl1 : ((b.Tasks.length + 1 : Nat) : Int) < 2 ^ 63 := by exact_mod_cast hl
            push_cast at hl1
            exact wrap64_of_range _ (by omega) (by omega)
          rw [List.map_append, hold, idsUpTo_succ]
          simp only [List.map_cons, List.map_nil, hw]
        · exact h.2 x (by simp [hx]) hl
    · rw [addTask_no_match U db t bName hnil (by simpa using hm)]
      exact h

theorem checkTasks_ids (taskId : Int) (ts : List task) :
    ∀ ts1, checkTasks taskId ts = some ts1 →
      ts1.map (fun t => t.ID) = ts.map (fun t => t.ID) := by
  induction ts with
  | nil =>
    intro ts1 h
    simp [checkTasks] at h
  | cons a rest ih =>
    intro ts1 h
    by_cases ha : a.ID = taskId
    · simp only [checkTasks, if_pos ha, Option.some.injEq] at h
      rw [← h]
      rfl
    · simp only [checkTasks, if_neg ha, Option.map_eq_some'] at h
      obtain ⟨r, hr, e⟩ := h
      rw [← e, List.map_cons, ih r hr]
      rfl

theorem checkBoards_idShape (U : UnicodeTables) (taskId : Int) (n : String) (l : List board) :
    ∀ l1, checkBoards U taskId n l = some l1 → idShape l1 = idShape l := by
  induction l with
  | nil =>
    intro l1 h
    simp [checkBoards] at h
  | cons a rest ih =>
    intro l1 h
    have hrec : ∀ l2, Option.map (fun bs => a :: bs) (checkBoards U taskId n rest) = some l2 →
        idShape l2 = idShape (a :: rest) := by
      intro l2 h2
      simp only [Option.map_eq_some'] at h2
      obtain ⟨r, hr, e⟩ := h2
      rw [← e]
      simp only [idShape, List.map_cons]
      have := ih r hr
      simp only [idShape] at this
      rw [this]
    by_cases ha : ToLower U a.Name = ToLower U n
    · cases hts : checkTasks taskId a.Tasks with
      | none =>
        simp only [checkBoards, if_pos ha, hts] at h
        exact hrec l1 h
      | some ts =>
        simp only [checkBoards, if_pos ha, hts, Option.some.injEq] at h
        rw [← h]
        simp only [idShape, List.map_cons, checkTasks_ids taskId a.Tasks ts hts]
    · simp only [checkBoards, if_neg ha] at h
      exact hrec l1 h

theorem numbered_checkTask (U : UnicodeTables) (db : database) (taskId : Int)
    (bName : String) (h : Numbered db.Boards) :
    Numbered (db.checkTask U taskId bName).1.Boards := by
  cases hc : checkBoards U taskId (ToLower U bName) db.Boards with
  | none =>
    simp only [database.checkTask, hc]
    exact h
  | some bs =>
    simp only [database.checkTask, hc]
    exact numbered_of_idShape bs db.Boards (checkBoards_idShape U taskId _ db.Boards bs hc) h

/-- In a reachable store the boards are numbered 1, 2, ... in insertion order,
and so are the tasks of each board. -/
theorem reachable_numbered (U : UnicodeTables) (db : database) (h : Reachable U db) :
    Numbered db.Boards := by
  induction h with
  | empty => exact ⟨fun _ => rfl, by simp [NewDatabase]⟩
  | addBoard db name active _ ih => exact numbered_addBoard U db name active ih
  | addTask db t bName _ ih => exact numbered_addTask U db t bName ih
  | checkTask db taskId bName _ ih => exact numbered_checkTask U db taskId bName ih

/-! ## The ids of the reachable stores: the claim -/

/-- C16: in every store reachable from the empty store by add board, `addTask`
and `checkTask` calls (a store being a Go value, with fewer than 2^63 boards and
fewer than 2^63 tasks in each board), the board ids are strictly positive and
pairwise distinct, and within each board the task ids are strictly positive and
pairwise distinct. -/
theorem reachable_ids_positive_distinct (U : UnicodeTables) (db : database)
    (hr : Reachable U db) (hB : db.Boards.length < 2 ^ 63)
    (hT : ∀ b ∈ db.Boards, b.Tasks.length < 2 ^ 63) :
    (∀ b ∈ db.Boards, 0 < b.ID) ∧ (db.Boards.map (fun b => b.ID)).Nodup ∧
    ∀ b ∈ db.Boards, (∀ t ∈ b.Tasks, 0 < t.ID) ∧ (b.Tasks.map (fun t => t.ID)).Nodup := by
  obtain ⟨h1, h2⟩ := reachable_numbered U db hr
  have hb := h1 hB
  refine ⟨?_, ?_, ?_⟩
  · intro b hbm
    have hm : b.ID ∈ db.Boards.map (fun b => b.ID) := List.mem_map.2 ⟨b, hbm, rfl⟩
    rw [hb] at hm
    have := ((mem_idsUpTo _ _).1 hm).1
    omega
  · rw [hb]
    exact idsUpTo_nodup _
  · intro b hbm
    have ht := h2 b hbm (hT b hbm)
    refine ⟨?_, ?_⟩
    · intro t htm
      have hm : t.ID ∈ b.Tasks.map (fun t => t.ID) := List.mem_map.2 ⟨t, htm, rfl⟩
      rw [ht] at hm
      have := ((mem_idsUpTo _ _).1 hm).1
      omega
    · rw [ht]
      exact idsUpTo_nodup _

/-- Witness of C16: the store after two boards were added, a task was added to
the second and checked. -/
theorem reachable_ids_positive_distinct_witness :
    (∀ b ∈ ((((NewDatabase.addBoard plainTables ⟨0, "home", false, []⟩).1.addBoard plainTables
        ⟨0, "work", true, []⟩).1.addTask plainTables ⟨0, "x", false⟩ "Work").1.checkTask
        plainTables 1 "WORK").1.Boards, 0 < b.ID) ∧
    (((((NewDatabase.addBoard plainTables ⟨0, "home", false, []⟩).1.addBoard plainTables
        ⟨0, "work", true, []⟩).1.addTask plainTables ⟨0, "x", false⟩ "Work").1.checkTask
        plainTables 1 "WORK").1.Boards.map (fun b => b.ID)).Nodup ∧
    ∀ b ∈ ((((NewDatabase.addBoard plainTables ⟨0, "home", false, []⟩).1.addBoard plainTables
        ⟨0, "work", true, []⟩).1.addTask plainTables ⟨0, "x", false⟩ "Work").1.checkTask
        plainTables 1 "WORK").1.Boards,
      (∀ t ∈ b.Tasks, 0 < t.ID) ∧ (b.Tasks.map (fun t => t.ID)).Nodup :=
  reachable_ids_positive_distinct plainTables _
    (Reachable.checkTask _ 1 "WORK"
      (Reachable.addTask _ ⟨0, "x", false⟩ "Work"
        (Reachable.addBoard _ "work" true
          (Reachable.addBoard _ "home" false Reachable.empty))))
    (by decide) (by decide)

end Ttrmg
